import Mathlib

/-!
# Photon: chunked tile world addressing

A shallow embedding of `src/src/world.cpp` (`WorldContainer`) and of
`src/experiments/world_old.cpp` (`World`).

Conventions of the embedding.

* `lvec2` / `ivec2` are the two-component integer vectors of the math
  library (whose header is not part of the sources).  Their components are
  modelled as mathematical integers; the arithmetic operators are the
  componentwise ones, `/` and `%` being the C++ truncating division and
  remainder (`Int.tdiv`, `Int.tmod`).  All statements are about index ranges
  in which the machine arithmetic does not overflow.
* `Chunk::size` is a constant of the missing header `world.hpp`; every
  function that uses it takes it as the explicit parameter `size`.
* `Tile`, `Chunk`, `Entity` are declared in missing headers and are modelled
  from the specification (see the doc comments of the definitions).
* `std::map<lvec2, std::shared_ptr<Chunk>>` is an association list from keys
  to optional chunk addresses (`none` is `nullptr`); the pointed-to chunk
  objects live in a separate heap so that aliasing through `shared_ptr` is
  kept.
* A non-const member function is a function from the state to a result and
  a new state; a const member function is a function from the state to a
  result only.
* A loop whose body is an assignment `chunk->at(idx) = tile` is the list of
  its assignments in execution order, applied to the chunk one after the
  other; an index outside the chunk stops the sequence with `OutOfRange`.
* The ground height of `WorldGenerator::getChunk` is computed in floating
  point from the column index alone. It enters the embedding as a function
  `groundY` from columns to integers; its value at column 0, where the sine
  is exactly `-1`, is `Chunk::size`.
-/

namespace Photon

/-! ## Vectors -/

/-- Two-component integer vector (`lvec2`, and `ivec2` below). -/
@[ext]
structure lvec2 where
  x : Int
  y : Int
deriving DecidableEq

/-- The `int` vector type; same embedding as `lvec2`. -/
abbrev ivec2 := lvec2

instance : Add lvec2 := ⟨fun a b => ⟨a.x + b.x, a.y + b.y⟩⟩
instance : Sub lvec2 := ⟨fun a b => ⟨a.x - b.x, a.y - b.y⟩⟩
instance : Neg lvec2 := ⟨fun a => ⟨-a.x, -a.y⟩⟩
instance : Zero lvec2 := ⟨⟨0, 0⟩⟩

/-- Vector times scalar, `v * s`. -/
def lvec2.scale (v : lvec2) (s : Int) : lvec2 := ⟨v.x * s, v.y * s⟩

/-- Componentwise truncating division by a scalar, `v / ivec2(s)`. -/
def lvec2.div (v : lvec2) (s : Int) : lvec2 := ⟨Int.tdiv v.x s, Int.tdiv v.y s⟩

/-- Componentwise truncating remainder by a scalar, `v % s`. -/
def lvec2.mod (v : lvec2) (s : Int) : lvec2 := ⟨Int.tmod v.x s, Int.tmod v.y s⟩

/-- Conversion of a C++ `bool` to an integer. -/
def boolToInt (b : Bool) : Int := if b then 1 else 0

/-- Sum of a list of vectors. -/
def lvec2.sum : List lvec2 → lvec2
  | [] => 0
  | d :: ds => d + lvec2.sum ds

/-- Floored division of a vector by a scalar: the chunk coordinate the
specification asks for. -/
def lvec2.floorDiv (v : lvec2) (s : Int) : lvec2 := ⟨v.x / s, v.y / s⟩

/-! ## Addressing: the first two lines of `WorldContainer::at` -/

/-- The local `chunkpos` of `WorldContainer::at` (both overloads) and of
`World::operator[]` (both overloads):
`tileoffset / ivec2(Chunk::size) - ivec2(tileoffset.x < 0, tileoffset.y < 0)`. -/
def chunkposOf (size : Int) (tileoffset : lvec2) : ivec2 :=
  tileoffset.div size
    - ⟨boolToInt (decide (tileoffset.x < 0)), boolToInt (decide (tileoffset.y < 0))⟩

/-- The local `tilepos` of `WorldContainer::at` (both overloads) and of
`World::operator[]` (both overloads):
`(tileoffset - chunkpos * Chunk::size) % Chunk::size`. -/
def tileposOf (size : Int) (tileoffset : lvec2) : ivec2 :=
  let chunkpos := chunkposOf size tileoffset
  (tileoffset - chunkpos.scale size).mod size

/-! ## Tiles and chunks -/

/-- Modelled from the spec: the `kind` enumeration of `Tile`
(empty/grass/dirt/stone/rock/null); `tile.hpp` is not part of the sources. -/
inductive TileKind where
  | empty
  | grass
  | dirt
  | stone
  | rock
  | null
deriving DecidableEq

/-- Modelled from the spec: the value type `Tile`, a material kind and a
variant; equality is structural. -/
structure Tile where
  kind : TileKind
  variant : Int
deriving DecidableEq

/-- Modelled from the spec: the sentinel `Tile::null`. -/
def Tile.null : Tile := ⟨TileKind.null, 0⟩

/-- Modelled from the spec: the default constructed tile, `empty`. -/
def Tile.default : Tile := ⟨TileKind.empty, 0⟩

/-- Failures of the addressing layer. `OutOfRange` is raised by `Chunk::at`
(modelled from the spec), `AddressingFault` is the `std::runtime_error`
thrown by `World::operator[]`. -/
inductive Error where
  | OutOfRange
  | AddressingFault
deriving DecidableEq

/-- The float vector type `vec2`. Its values are only stored and passed on;
no arithmetic on them is modelled. -/
structure vec2 where
  x : Rat
  y : Rat
deriving DecidableEq

/-- Modelled from the spec: class `Chunk` (its header is not part of the
sources): the chunk coordinate and the `size` by `size` grid of tiles, addressed
by local index, and the tile scale captured at creation. The tile scale is
render data: no addressing function reads it. -/
structure Chunk where
  pos : lvec2
  tiles : ivec2 → Tile
  tileScale : vec2 := ⟨1, 1⟩

/-- Modelled from the spec: `new Chunk(owner, pos, tileScale)`, all tiles
default (`empty`). The scale argument of `World::createChunk` comes from a
texture that is not modelled; such chunks carry the unit scale. -/
def Chunk.create (pos : lvec2) : Chunk := { pos := pos, tiles := fun _ => Tile.default }

/-- Modelled from the spec: `Chunk::getPos`. -/
def Chunk.getPos (c : Chunk) : lvec2 := c.pos

/-- Modelled from the spec: the bounds test of `Chunk::at`, both components
in `[0, size)`. -/
def Chunk.inRange (size : Int) (idx : ivec2) : Bool :=
  decide (0 ≤ idx.x) && decide (idx.x < size) && decide (0 ≤ idx.y) && decide (idx.y < size)

/-- Modelled from the spec: `Chunk::at(idx)` read as a value; fails with
`OutOfRange` if a component is outside `[0, size)`. -/
def Chunk.at (size : Int) (c : Chunk) (idx : ivec2) : Except Error Tile :=
  if Chunk.inRange size idx then Except.ok (c.tiles idx) else Except.error Error.OutOfRange

/-- Modelled from the spec: assignment `chunk->at(idx) = t` through the
reference returned by a successful `Chunk::at`. -/
def Chunk.assign (c : Chunk) (idx : ivec2) (t : Tile) : Chunk :=
  { c with tiles := fun i => if i = idx then t else c.tiles i }

/-- The `Tile&` returned by the mutable accessors: the chunk object it
points into (a heap address for `WorldContainer`, a position in the chunk
vector for `World`) and the local index inside that chunk. -/
structure TileRef where
  chunk : Nat
  tilepos : ivec2
deriving DecidableEq

/-- Modelled from the spec: class `Entity` restricted to its stored position,
in chunk units. -/
structure Entity where
  pos : lvec2
deriving DecidableEq

/-- Modelled from the spec: `Entity::shift(v)` translates the stored position
by `v`. -/
def Entity.shift (e : Entity) (v : lvec2) : Entity := { e with pos := e.pos + v }

/-! ## The chunk map `std::map<lvec2, std::shared_ptr<Chunk>>` -/

/-- A `std::shared_ptr<Chunk>`: `none` is `nullptr`, `some a` the address of
a chunk object. -/
abbrev ChunkPtr := Option Nat

/-- The map as an association list with at most one entry per key. The
iteration order of `std::map` plays no role in the modelled functions. -/
abbrev ChunkMap := List (lvec2 × ChunkPtr)

/-- Lookup: `some v` if the key is mapped to `v`, `none` if it is unmapped. -/
def mapFind : ChunkMap → lvec2 → Option ChunkPtr
  | [], _ => none
  | (k', v) :: m, k => if k' = k then some v else mapFind m k

/-- Embeds `m.count(k)`. -/
def mapCount (m : ChunkMap) (k : lvec2) : Nat :=
  match mapFind m k with
  | some _ => 1
  | none => 0

/-- Embeds `m[k] = v`: replaces the value of a mapped key, inserts an unmapped
one. -/
def mapAssign : ChunkMap → lvec2 → ChunkPtr → ChunkMap
  | [], k, v => [(k, v)]
  | (k', v') :: m, k, v => if k' = k then (k', v) :: m else (k', v') :: mapAssign m k v

/-- Embeds `m[k]` read as a value: an unmapped key is first inserted with a
default constructed (null) pointer. -/
def mapSubscript (m : ChunkMap) (k : lvec2) : ChunkPtr × ChunkMap :=
  match mapFind m k with
  | some v => (v, m)
  | none => (none, mapAssign m k none)

/-- Embeds `m.erase(k)`. -/
def mapErase (m : ChunkMap) (k : lvec2) : ChunkMap :=
  m.filter (fun e => decide (e.1 ≠ k))

/-- The keys of the map. -/
def mapKeys (m : ChunkMap) : List lvec2 := m.map Prod.fst

/-! ## `WorldContainer` (src/src/world.cpp) -/

/-- The state of a `WorldContainer`: the members `m_chunks`, `m_entities`,
`m_offset`, and the chunk objects the shared pointers of `m_chunks` point to
(`chunkHeap`, with `chunkNext` the next address handed out by `new Chunk`).
The entity vector is stored by value: its pointers are taken to be pairwise
distinct objects. -/
structure WorldContainer where
  m_chunks : ChunkMap
  m_entities : List Entity
  m_offset : lvec2
  chunkHeap : Nat → Chunk
  chunkNext : Nat

/-- Embeds `void WorldContainer::setChunk(lvec2 pos, const std::shared_ptr<Chunk> &chunk)`. -/
def WorldContainer.setChunk (w : WorldContainer) (pos : lvec2) (chunk : ChunkPtr) : WorldContainer :=
  { w with m_chunks := mapAssign w.m_chunks (pos + w.m_offset) chunk }

/-- Embeds `std::shared_ptr<Chunk> WorldContainer::getChunk(lvec2 pos)`, the
non-const overload: `return m_chunks[pos + m_offset];`. -/
def WorldContainer.getChunk (w : WorldContainer) (pos : lvec2) : ChunkPtr × WorldContainer :=
  let r := mapSubscript w.m_chunks (pos + w.m_offset)
  (r.1, { w with m_chunks := r.2 })

/-- Embeds `std::shared_ptr<Chunk> WorldContainer::getChunk(lvec2 pos) const`. -/
def WorldContainer.getChunkConst (w : WorldContainer) (pos : lvec2) : ChunkPtr :=
  if mapCount w.m_chunks (pos + w.m_offset) ≠ 0 then
    (mapFind w.m_chunks (pos + w.m_offset)).getD none
  else none

/-- Embeds `void WorldContainer::eraseChunk(lvec2 pos)`. -/
def WorldContainer.eraseChunk (w : WorldContainer) (pos : lvec2) : WorldContainer :=
  { w with m_chunks := mapErase w.m_chunks (pos + w.m_offset) }

/-- Embeds `void WorldContainer::setChunkAbsolute(lvec2 pos, ...)`. -/
def WorldContainer.setChunkAbsolute (w : WorldContainer) (pos : lvec2) (chunk : ChunkPtr) : WorldContainer :=
  { w with m_chunks := mapAssign w.m_chunks pos chunk }

/-- Embeds `std::shared_ptr<Chunk> WorldContainer::getChunkAbsolute(lvec2 pos)`, the
non-const overload. -/
def WorldContainer.getChunkAbsolute (w : WorldContainer) (pos : lvec2) : ChunkPtr × WorldContainer :=
  let r := mapSubscript w.m_chunks pos
  (r.1, { w with m_chunks := r.2 })

/-- Embeds `std::shared_ptr<Chunk> WorldContainer::getChunkAbsolute(lvec2 pos) const`. -/
def WorldContainer.getChunkAbsoluteConst (w : WorldContainer) (pos : lvec2) : ChunkPtr :=
  if mapCount w.m_chunks pos ≠ 0 then (mapFind w.m_chunks pos).getD none else none

/-- Embeds `void WorldContainer::eraseChunkAbsolute(lvec2 pos)`. -/
def WorldContainer.eraseChunkAbsolute (w : WorldContainer) (pos : lvec2) : WorldContainer :=
  { w with m_chunks := mapErase w.m_chunks pos }

/-- Embeds `lvec2 WorldContainer::offset() const`. -/
def WorldContainer.offset (w : WorldContainer) : lvec2 := w.m_offset

/-- Embeds `void WorldContainer::shift(lvec2 offset)`. -/
def WorldContainer.shift (w : WorldContainer) (offset : lvec2) : WorldContainer :=
  { w with
    m_offset := w.m_offset - offset
    m_entities := w.m_entities.map (fun entity => entity.shift (-offset)) }

/-- A sequence of calls `shift(d1); ...; shift(dn)`. -/
def WorldContainer.shifts (w : WorldContainer) (ds : List lvec2) : WorldContainer :=
  ds.foldl WorldContainer.shift w

/-- Modelled from the spec: `WorldContainer::loadChunk(key)`, whose
definition is not part of the sources: get-or-create under the absolute key
it is given. A key mapped to a chunk yields that chunk; otherwise the
provider `gen` materializes one, which is stored under the key. -/
def WorldContainer.loadChunk (gen : lvec2 → Chunk) (w : WorldContainer) (key : lvec2) : Nat × WorldContainer :=
  match mapFind w.m_chunks key with
  | some (some a) => (a, w)
  | _ =>
    (w.chunkNext,
      { w with
        m_chunks := mapAssign w.m_chunks key (some w.chunkNext)
        chunkHeap := fun a => if a = w.chunkNext then gen key else w.chunkHeap a
        chunkNext := w.chunkNext + 1 })

/-- Embeds `Tile& WorldContainer::at(lvec2 tileoffset)`: the reference that is
returned and the state after the call. -/
def WorldContainer.at (size : Int) (gen : lvec2 → Chunk) (w : WorldContainer) (tileoffset : lvec2) :
    Except Error TileRef × WorldContainer :=
  let chunkpos := chunkposOf size tileoffset
  let tilepos := tileposOf size tileoffset
  let r := WorldContainer.loadChunk gen w (chunkpos + w.offset)
  ((Chunk.at size (r.2.chunkHeap r.1) tilepos).map (fun _ => ⟨r.1, tilepos⟩), r.2)

/-- Reading the tile behind a reference. -/
def WorldContainer.deref (w : WorldContainer) (r : TileRef) : Tile := (w.chunkHeap r.chunk).tiles r.tilepos

/-- Writing a tile through a reference. -/
def WorldContainer.store (w : WorldContainer) (r : TileRef) (t : Tile) : WorldContainer :=
  { w with
    chunkHeap := fun a => if a = r.chunk then (w.chunkHeap a).assign r.tilepos t else w.chunkHeap a }

/-- The statement `world.at(tileoffset) = t;` on a non-const container. -/
def WorldContainer.write (size : Int) (gen : lvec2 → Chunk) (w : WorldContainer) (tileoffset : lvec2) (t : Tile) :
    Except Error Unit × WorldContainer :=
  match WorldContainer.at size gen w tileoffset with
  | (Except.ok r, w1) => (Except.ok (), w1.store r t)
  | (Except.error e, w1) => (Except.error e, w1)

/-- The expression `world.at(tileoffset)` on a non-const container, read as
a value. -/
def WorldContainer.read (size : Int) (gen : lvec2 → Chunk) (w : WorldContainer) (tileoffset : lvec2) :
    Except Error Tile × WorldContainer :=
  match WorldContainer.at size gen w tileoffset with
  | (Except.ok r, w1) => (Except.ok (w1.deref r), w1)
  | (Except.error e, w1) => (Except.error e, w1)

/-- Embeds `Tile WorldContainer::at(lvec2 tileoffset) const`. -/
def WorldContainer.atConst (size : Int) (w : WorldContainer) (tileoffset : lvec2) : Except Error Tile :=
  let chunkpos := chunkposOf size tileoffset
  let tilepos := tileposOf size tileoffset
  match w.getChunkConst chunkpos with
  | some a => Chunk.at size (w.chunkHeap a) tilepos
  | none => Except.ok Tile.null

/-- Number of keys of the chunk map, `chunks().size()`. -/
def WorldContainer.chunkCount (w : WorldContainer) : Nat := w.m_chunks.length


/-! ## `World` (src/experiments/world_old.cpp) -/

/-- The state of the older `World` class restricted to the members the
addressing functions use: the `autogrow` flag, the vector of uniquely owned
chunks and the `fallback` tile. -/
structure World where
  autogrow : Bool
  chunks : List Chunk
  fallback : Tile

/-- The search loop shared by both overloads of `World::getChunk`: the
position in the vector of the first chunk whose `getPos()` equals `pos`. -/
def chunkIndex (pos : lvec2) : List Chunk → Option Nat
  | [] => none
  | c :: cs => if c.getPos = pos then some 0 else (chunkIndex pos cs).map (fun i => i + 1)

/-- Embeds `Chunk* World::createChunk(lvec2 pos)`: pushes a new chunk and
returns a pointer to it (its position in the vector). -/
def World.createChunk (w : World) (pos : lvec2) : Nat × World :=
  (w.chunks.length, { w with chunks := w.chunks ++ [Chunk.create pos] })

/-- Embeds `Chunk* World::getChunk(lvec2 pos)`, the non-const overload;
`none` is `nullptr`. -/
def World.getChunk (w : World) (pos : lvec2) : Option Nat × World :=
  match chunkIndex pos w.chunks with
  | some i => (some i, w)
  | none =>
    if w.autogrow then
      let r := w.createChunk pos
      (some r.1, r.2)
    else (none, w)

/-- Embeds `const Chunk* World::getChunk(lvec2 pos) const`. -/
def World.getChunkConst (w : World) (pos : lvec2) : Option Nat :=
  chunkIndex pos w.chunks

/-- The chunk object behind a pointer into the chunk vector. Pointers
returned by `getChunk` are always positions inside the vector. -/
def World.chunkObj (w : World) (i : Nat) : Chunk := w.chunks.getD i (Chunk.create 0)

/-- Embeds `Tile& World::operator[](const ivec2 &pos)`, to which `World::at`
delegates: the reference returned, or the error thrown, and the state after
the call. -/
def World.at (size : Int) (w : World) (pos : ivec2) : Except Error TileRef × World :=
  let chunkpos := chunkposOf size pos
  let tilepos := tileposOf size pos
  let r := w.getChunk chunkpos
  match r.1 with
  | none => (Except.error Error.AddressingFault, r.2)
  | some i => ((Chunk.at size (r.2.chunkObj i) tilepos).map (fun _ => ⟨i, tilepos⟩), r.2)

/-- Embeds `const Tile& World::operator[](const ivec2 &pos) const`. -/
def World.atConst (size : Int) (w : World) (pos : ivec2) : Except Error Tile :=
  let chunkpos := chunkposOf size pos
  let tilepos := tileposOf size pos
  match w.getChunkConst chunkpos with
  | some i => Chunk.at size (w.chunkObj i) tilepos
  | none => Except.ok w.fallback

/-- Number of chunks of the world, `chunks.size()`. -/
def World.chunkCount (w : World) : Nat := w.chunks.length

/-! ## Concrete states used in examples -/

/-- A provider that creates an all-default chunk at the requested key. -/
def emptyProvider (key : lvec2) : Chunk := Chunk.create key

/-- A freshly constructed container: no chunks, no entities, offset zero. -/
def WorldContainer.init : WorldContainer :=
  { m_chunks := [], m_entities := [], m_offset := 0,
    chunkHeap := fun _ => Chunk.create 0, chunkNext := 0 }

/-- A freshly constructed `World` with the given `autogrow` flag. -/
def World.init (autogrow : Bool) : World :=
  { autogrow := autogrow, chunks := [], fallback := Tile.default }

/-- A container with offset zero whose only chunk is stored under the
absolute key `(0,0)`, at heap address 0. -/
def WorldContainer.oneChunk : WorldContainer :=
  { m_chunks := [(⟨0, 0⟩, some 0)], m_entities := [], m_offset := 0,
    chunkHeap := fun _ => Chunk.create 0, chunkNext := 1 }

/-- A container with offset zero, no chunks and one entity stored at
position `(0,0)`. -/
def WorldContainer.oneEntity : WorldContainer :=
  { m_chunks := [], m_entities := [⟨⟨0, 0⟩⟩], m_offset := 0,
    chunkHeap := fun _ => Chunk.create 0, chunkNext := 0 }

/-! ## Sequences of tile assignments -/

/-- Modelled from the spec: `Chunk::fill(kind)`, every tile becomes
`(kind, variant = 0)`. -/
def Chunk.fill (c : Chunk) (kind : TileKind) : Chunk :=
  { c with tiles := fun _ => ⟨kind, 0⟩ }

/-- A sequence of statements `chunk->at(idx) = tile;` executed in order.
The first index that fails the bounds test of `Chunk::at` raises `OutOfRange`
and leaves the chunk as the earlier statements made it. -/
def Chunk.writeAll (size : Int) : Chunk → List (ivec2 × Tile) → Except Error Unit × Chunk
  | c, [] => (Except.ok (), c)
  | c, (idx, t) :: ws =>
    match Chunk.at size c idx with
    | Except.ok _ => Chunk.writeAll size (c.assign idx t) ws
    | Except.error e => (Except.error e, c)

/-! ## `WorldGenerator` (src/src/world.cpp) -/

/-- The state of a `WorldGenerator`: the container it references and the
tile scale. -/
structure WorldGenerator where
  container : WorldContainer
  tileScale : vec2

/-- Modelled from the spec: `new Chunk(container, pos, tileScale)`: a chunk
with coordinate `pos`, all tiles default, and the given tile scale. The
owner is a back reference and is not part of the chunk model. -/
def Chunk.new (_container : WorldContainer) (pos : lvec2) (tileScale : vec2) : Chunk :=
  { pos := pos, tiles := fun _ => Tile.default, tileScale := tileScale }

/-- The tile assigned by the body of the inner loop of
`WorldGenerator::getChunk` at loop counter `i`; `Tile(Tile::rock)` has the
default variant 0. -/
def WorldGenerator.tileAtDepth (i : Int) : Tile :=
  if i < 2 then ⟨TileKind.grass, i⟩
  else if i < 12 then ⟨TileKind.dirt, i - 2⟩
  else if i < 22 then ⟨TileKind.stone, i - 12⟩
  else ⟨TileKind.rock, 0⟩

/-- The inner loop `for(int y = groundY, i = 0; y >= 0; y--, i++)` of
`WorldGenerator::getChunk` for column `x`: its assignments
`chunk->at(ivec2(x, y)) = ...` in execution order, `y = groundY - i`. -/
def WorldGenerator.columnWrites (x groundY : Int) : List (ivec2 × Tile) :=
  (List.range (groundY + 1).toNat).map
    (fun (i : Nat) => (⟨x, groundY - (i : Int)⟩, WorldGenerator.tileAtDepth (i : Int)))

/-- The outer loop `for(int x = 0; x < Chunk::size; x++)` of
`WorldGenerator::getChunk`: all assignments in execution order. The value of
`int groundY = Chunk::size - (sin(float(x) / Chunk::size * pi * 2 - pi * 0.5) * 3 + 3)`
is a floating point computation that depends on the column only; it enters
as the function `groundY` of the column. -/
def WorldGenerator.surfaceWrites (size : Int) (groundY : Int → Int) : List (ivec2 × Tile) :=
  (List.range size.toNat).flatMap
    (fun (x : Nat) => WorldGenerator.columnWrites (x : Int) (groundY (x : Int)))

/-- The body of `WorldGenerator::getChunk` with the `Chunk` constructor as
a parameter `newChunk`: the chunk built, or the error raised by an
out-of-range `Chunk::at`. -/
def WorldGenerator.buildChunkWith (newChunk : WorldContainer → lvec2 → vec2 → Chunk)
    (size : Int) (groundY : Int → Int) (g : WorldGenerator) (pos : lvec2) :
    Except Error Chunk :=
  let chunk := newChunk g.container pos g.tileScale
  if pos.y = -1 then
    match Chunk.writeAll size chunk (WorldGenerator.surfaceWrites size groundY) with
    | (Except.ok _, c) => Except.ok c
    | (Except.error e, _) => Except.error e
  else if pos.y < -1 then Except.ok (chunk.fill TileKind.rock)
  else Except.ok chunk

/-- The chunk built by the body of `WorldGenerator::getChunk`, or the error
raised by an out-of-range `Chunk::at`, with the constructor modelled from
the spec. -/
def WorldGenerator.buildChunk (size : Int) (groundY : Int → Int) (g : WorldGenerator)
    (pos : lvec2) : Except Error Chunk :=
  WorldGenerator.buildChunkWith Chunk.new size groundY g pos

/-- Embeds `WorldGenerator::getChunk` with the `Chunk` constructor as a
parameter: the outcome and the state of the generator after the call. -/
def WorldGenerator.getChunkWith (newChunk : WorldContainer → lvec2 → vec2 → Chunk)
    (size : Int) (groundY : Int → Int) (g : WorldGenerator) (pos : lvec2) :
    Except Error Chunk × WorldGenerator :=
  (WorldGenerator.buildChunkWith newChunk size groundY g pos, g)

/-- Embeds `std::shared_ptr<Chunk> WorldGenerator::getChunk(lvec2 pos)`, a
non-const member: the chunk returned (or the error raised) and the state of
the generator after the call. The body assigns to no member. -/
def WorldGenerator.getChunk (size : Int) (groundY : Int → Int) (g : WorldGenerator)
    (pos : lvec2) : Except Error Chunk × WorldGenerator :=
  (WorldGenerator.buildChunk size groundY g pos, g)

/-- The reference ground heights for `Chunk::size = 64`, columns 0 to 63:
the value of `64 - (3 * sin(2 * pi * x / 64 - pi / 2) + 3)` in exact
arithmetic, truncated to an integer. The proofs use the entry of column 0
only. -/
def referenceGroundY64 (x : Int) : Int :=
  ([64, 63, 63, 63, 63, 63, 63, 63, 63, 62, 62, 62, 62, 61, 61, 61,
    61, 60, 60, 60, 59, 59, 59, 59, 58, 58, 58, 58, 58, 58, 58, 58,
    58, 58, 58, 58, 58, 58, 58, 58, 58, 59, 59, 59, 59, 60, 60, 60,
    61, 61, 61, 61, 62, 62, 62, 62, 63, 63, 63, 63, 63, 63, 63, 63] : List Int).getD x.toNat 0

/-- A generator that references the empty container. -/
def WorldGenerator.init : WorldGenerator :=
  { container := WorldContainer.init, tileScale := ⟨1, 1⟩ }

/-- A generator that references a container with a chunk, with another
tile scale. -/
def WorldGenerator.other : WorldGenerator :=
  { container := WorldContainer.oneChunk, tileScale := ⟨2, 3⟩ }

/-! ## The flat provider of `World` (src/experiments/world_old.cpp) -/

/-- The body of the loop over `x` in `World::generateFlatChunk`: its
assignments in execution order. `Tile::grass` converts to a tile with the
default variant 0. -/
def World.flatColumnWrites (size x : Int) : List (ivec2 × Tile) :=
  [(⟨x, size - 1⟩, ⟨TileKind.grass, 0⟩), (⟨x, size - 2⟩, ⟨TileKind.grass, 0⟩)]
    ++ (List.range 10).map
        (fun (y : Nat) => ((⟨x, size - 3 - (y : Int)⟩ : ivec2), (⟨TileKind.dirt, (y : Int)⟩ : Tile)))
    ++ (List.range 10).map
        (fun (y : Nat) => ((⟨x, size - 13 - (y : Int)⟩ : ivec2), (⟨TileKind.stone, (y : Int)⟩ : Tile)))

/-- The loop `for(int x = 0; x < Chunk::size; x++)` of
`World::generateFlatChunk`: all assignments in execution order. -/
def World.flatWrites (size : Int) : List (ivec2 × Tile) :=
  (List.range size.toNat).flatMap (fun (x : Nat) => World.flatColumnWrites size (x : Int))

/-- Replaces the chunk object behind a pointer into the chunk vector. -/
def World.setChunkObj (w : World) (i : Nat) (c : Chunk) : World :=
  { w with chunks := w.chunks.set i c }

/-- Embeds `Chunk* World::generateFlatChunk(lvec2 pos)`: the pointer
returned, or the error raised by an out-of-range `Chunk::at`, and the state
after the call. -/
def World.generateFlatChunk (size : Int) (w : World) (pos : lvec2) : Except Error Nat × World :=
  let r := w.createChunk pos
  let filled := (r.2.chunkObj r.1).fill TileKind.rock
  let res := Chunk.writeAll size filled (World.flatWrites size)
  (res.1.map (fun _ => r.1), r.2.setChunkObj r.1 res.2)

/-- The tile a row of the grass, dirt and stone bands of the flat chunk
receives: grass in the two top rows, dirt with the depth below them as variant
in the next ten, stone likewise in the ten after. -/
def World.flatTile (size y : Int) : Tile :=
  if size - 2 ≤ y then ⟨TileKind.grass, 0⟩
  else if size - 12 ≤ y then ⟨TileKind.dirt, size - 3 - y⟩
  else ⟨TileKind.stone, size - 13 - y⟩

/-! ## Chunk objects stored under one key only -/

/-- The non-null pointers stored in the chunk map. -/
def mapPtrs (m : ChunkMap) : List Nat := m.filterMap Prod.snd

/-- No chunk object is stored under two keys, and every stored address has
been handed out by the allocator. -/
def WorldContainer.unaliased (w : WorldContainer) : Prop :=
  (mapPtrs w.m_chunks).Nodup ∧ ∀ a ∈ mapPtrs w.m_chunks, a < w.chunkNext

instance (w : WorldContainer) : Decidable w.unaliased := by
  unfold WorldContainer.unaliased
  exact inferInstance

/-- A container in which the keys `(0,0)` and `(1,0)` hold the same chunk
object, as after `setChunk(lvec2(0,0), c); setChunk(lvec2(1,0), c);`. -/
def WorldContainer.aliased : WorldContainer :=
  { m_chunks := [(⟨0, 0⟩, some 0), (⟨1, 0⟩, some 0)], m_entities := [], m_offset := 0,
    chunkHeap := fun _ => Chunk.create 0, chunkNext := 1 }

/-- A container with offset zero that holds one chunk, stored under the
absolute key `(0,0)`, and one entity, stored at position `(0,0)` inside that
chunk. -/
def WorldContainer.oneChunkOneEntity : WorldContainer :=
  { m_chunks := [(⟨0, 0⟩, some 0)], m_entities := [⟨⟨0, 0⟩⟩], m_offset := 0,
    chunkHeap := fun _ => Chunk.create 0, chunkNext := 1 }

/-- A `World` with `autogrow` off that holds one chunk, at chunk coordinate
`(-1, -1)`. -/
def World.oneChunk : World :=
  { autogrow := false, chunks := [Chunk.create ⟨-1, -1⟩], fallback := Tile.default }

/-! # Theorems -/

/-! ## Vector arithmetic -/

@[simp] theorem lvec2.add_x (a b : lvec2) : (a + b).x = a.x + b.x := rfl
@[simp] theorem lvec2.add_y (a b : lvec2) : (a + b).y = a.y + b.y := rfl
@[simp] theorem lvec2.sub_x (a b : lvec2) : (a - b).x = a.x - b.x := rfl
@[simp] theorem lvec2.sub_y (a b : lvec2) : (a - b).y = a.y - b.y := rfl
@[simp] theorem lvec2.neg_x (a : lvec2) : (-a).x = -a.x := rfl
@[simp] theorem lvec2.neg_y (a : lvec2) : (-a).y = -a.y := rfl
@[simp] theorem lvec2.zero_x : (0 : lvec2).x = 0 := rfl
@[simp] theorem lvec2.zero_y : (0 : lvec2).y = 0 := rfl

/-! ## Scalar facts about truncating division and remainder -/

/-- For a negative dividend the truncating remainder lies in `(-size, 0]`. -/
theorem tmod_range_of_neg (size x : Int) (h : 0 < size) (hx : x < 0) :
    -size < Int.tmod x size ∧ Int.tmod x size ≤ 0 := by
  have h1 : Int.tmod x size = -Int.tmod (-x) size := by
    rw [Int.tmod_def, Int.tmod_def, Int.neg_tdiv, Int.mul_neg]; ring
  have h2 : 0 ≤ Int.tmod (-x) size := Int.tmod_nonneg _ (by omega)
  have h3 : Int.tmod (-x) size < size := Int.tmod_lt_of_pos _ h
  omega

/-- The argument of the final `%` in `tilepos`: the truncating remainder,
plus one `size` for a negative component. -/
theorem sub_chunk_scalar (size x : Int) :
    x - (Int.tdiv x size - boolToInt (decide (x < 0))) * size
      = Int.tmod x size + boolToInt (decide (x < 0)) * size := by
  have := Int.tmod_add_tdiv' x size
  rw [Int.sub_mul]; omega

/-- Euclidean remainder in terms of the truncating one. -/
theorem emod_eq_tmod_add (size x : Int) :
    x % size = (Int.tmod x size + size) % size := by
  have hd := Int.tmod_add_tdiv' x size
  conv_lhs => rw [← hd]
  rw [Int.add_mul_emod_self, Int.add_emod_self]

/-- One component of `tilepos` is the Euclidean remainder. -/
theorem tilepos_scalar (size x : Int) (h : 0 < size) :
    Int.tmod (x - (Int.tdiv x size - boolToInt (decide (x < 0))) * size) size = x % size := by
  rw [sub_chunk_scalar]
  by_cases hx : x < 0
  · obtain ⟨h1, h2⟩ := tmod_range_of_neg size x h hx
    simp only [hx, decide_True, boolToInt, if_true, Int.one_mul]
    rw [emod_eq_tmod_add, Int.tmod_eq_emod (by omega) (by omega)]
  · have hx0 : 0 ≤ x := by omega
    have hr := Int.emod_nonneg x (by omega : size ≠ 0)
    simp only [hx, decide_False, boolToInt, Bool.false_eq_true, if_false, Int.zero_mul,
      Int.add_zero]
    rw [Int.tmod_eq_emod hx0 (by omega), Int.tmod_eq_emod hr (by omega), Int.emod_emod]

/-- The wrap formula of the specification is the Euclidean remainder. -/
theorem spec_wrap_scalar (size x : Int) (h : 0 < size) :
    Int.tmod (Int.tmod x size + size) size = x % size := by
  rw [emod_eq_tmod_add]
  by_cases hx : x < 0
  · obtain ⟨h1, h2⟩ := tmod_range_of_neg size x h hx
    exact Int.tmod_eq_emod (by omega) (by omega)
  · have := Int.tmod_nonneg size (by omega : 0 ≤ x)
    exact Int.tmod_eq_emod (by omega) (by omega)

/-- One component of `chunkpos` is the floored quotient unless the component
is a negative exact multiple of `size`. -/
theorem chunkpos_scalar_floor (size x : Int) (h : 0 < size) (hx : 0 ≤ x ∨ ¬ size ∣ x) :
    Int.tdiv x size - boolToInt (decide (x < 0)) = x / size := by
  by_cases hneg : x < 0
  · have hnd : ¬ size ∣ x := by
      rcases hx with h0 | h0
      · omega
      · exact h0
    obtain ⟨h1, h2⟩ := tmod_range_of_neg size x h hneg
    have h3 : Int.tmod x size ≠ 0 := fun h0 => hnd (Int.dvd_of_tmod_eq_zero h0)
    have hd := Int.tmod_add_tdiv' x size
    simp only [hneg, decide_True, boolToInt, if_true]
    have e : x = (Int.tmod x size + size) + (Int.tdiv x size - 1) * size := by
      rw [Int.sub_mul]; omega
    conv_rhs => rw [e]
    rw [Int.add_mul_ediv_right _ _ (by omega : size ≠ 0),
      Int.ediv_eq_zero_of_lt (by omega) (by omega)]
    omega
  · simp only [hneg, decide_False, boolToInt, Bool.false_eq_true, if_false, Int.sub_zero]
    exact Int.tdiv_eq_ediv (by omega) (by omega)

/-- One component of `chunkpos` at a negative exact multiple of `size` is one
less than the floored quotient. -/
theorem chunkpos_scalar_neg_multiple (size x : Int) (hx : x < 0) (hd : size ∣ x) :
    Int.tdiv x size - boolToInt (decide (x < 0)) = x / size - 1 := by
  simp only [hx, decide_True, boolToInt, if_true]
  rw [Int.tdiv_eq_ediv_of_dvd hd]

/-! ## Addressing -/

theorem chunkposOf_x (size : Int) (p : lvec2) :
    (chunkposOf size p).x = Int.tdiv p.x size - boolToInt (decide (p.x < 0)) := rfl

theorem chunkposOf_y (size : Int) (p : lvec2) :
    (chunkposOf size p).y = Int.tdiv p.y size - boolToInt (decide (p.y < 0)) := rfl

/-- The local index computed by the addressing code is the componentwise
Euclidean remainder. -/
theorem tileposOf_eq_emod (size : Int) (h : 0 < size) (p : lvec2) :
    tileposOf size p = ⟨p.x % size, p.y % size⟩ := by
  apply lvec2.ext
  · exact tilepos_scalar size p.x h
  · exact tilepos_scalar size p.y h

/-- The local index passes the bounds test of `Chunk::at`. -/
theorem tileposOf_inRange (size : Int) (h : 0 < size) (p : lvec2) :
    Chunk.inRange size (tileposOf size p) = true := by
  rw [tileposOf_eq_emod size h]
  have hs : size ≠ 0 := by omega
  simp [Chunk.inRange, Int.emod_nonneg _ hs, Int.emod_lt_of_pos _ h]

/-- The chunk coordinate computed by the addressing code is the floored
quotient whenever no component is a negative exact multiple of `size`. -/
theorem chunkposOf_eq_floorDiv (size : Int) (h : 0 < size) (p : lvec2)
    (hx : 0 ≤ p.x ∨ ¬ size ∣ p.x) (hy : 0 ≤ p.y ∨ ¬ size ∣ p.y) :
    chunkposOf size p = p.floorDiv size := by
  apply lvec2.ext
  · exact chunkpos_scalar_floor size p.x h hx
  · exact chunkpos_scalar_floor size p.y h hy

/-- C1 (evaluation of the code where the claim fails): with `size = 64` the
tile index `(-64, 0)`, whose x component is a negative exact multiple of the
chunk size, is sent by `WorldContainer::at` / `World::operator[]` to chunk
`(-2, 0)` and local index `(0, 0)`, while the floored quotient is `(-1, 0)`;
chunk coordinate times size plus local index gives `(-128, 0)`, not the tile
index. -/
theorem chunkposOf_negative_multiple_not_floor :
    chunkposOf 64 ⟨-64, 0⟩ = ⟨-2, 0⟩ ∧
    lvec2.floorDiv ⟨-64, 0⟩ 64 = ⟨-1, 0⟩ ∧
    tileposOf 64 ⟨-64, 0⟩ = ⟨0, 0⟩ ∧
    (chunkposOf 64 ⟨-64, 0⟩).scale 64 + tileposOf 64 ⟨-64, 0⟩ = ⟨-128, 0⟩ ∧
    chunkposOf 64 ⟨-64, 0⟩ ≠ lvec2.floorDiv ⟨-64, 0⟩ 64 := by
  decide

/-- C2: for a positive chunk size the local index computed by
`WorldContainer::at` is `((x mod N + N) mod N, (y mod N + N) mod N)` with the
C++ remainder, which is also the Euclidean remainder; both components lie in
`[0, N)`, so `Chunk::at` called with it passes the bounds test and returns the
addressed tile for every chunk. -/
theorem tileposOf_wrap_in_range (size : Int) (hsize : 0 < size) (p : lvec2) :
    tileposOf size p
        = ⟨Int.tmod (Int.tmod p.x size + size) size, Int.tmod (Int.tmod p.y size + size) size⟩ ∧
    tileposOf size p = ⟨p.x % size, p.y % size⟩ ∧
    (0 ≤ (tileposOf size p).x ∧ (tileposOf size p).x < size) ∧
    (0 ≤ (tileposOf size p).y ∧ (tileposOf size p).y < size) ∧
    ∀ c : Chunk, Chunk.at size c (tileposOf size p) = Except.ok (c.tiles (tileposOf size p)) := by
  have he := tileposOf_eq_emod size hsize p
  have hs : size ≠ 0 := by omega
  refine ⟨?_, he, ?_, ?_, ?_⟩
  · rw [he, spec_wrap_scalar size p.x hsize, spec_wrap_scalar size p.y hsize]
  · rw [he]; exact ⟨Int.emod_nonneg _ hs, Int.emod_lt_of_pos _ hsize⟩
  · rw [he]; exact ⟨Int.emod_nonneg _ hs, Int.emod_lt_of_pos _ hsize⟩
  · intro c
    simp [Chunk.at, tileposOf_inRange size hsize p]

/-- C2 at `size = 64` and the tile index `(-64, -1)`. -/
theorem tileposOf_wrap_in_range_witness :
    (0 : Int) < 64 ∧
    (tileposOf 64 ⟨-64, -1⟩
        = ⟨Int.tmod (Int.tmod (-64) 64 + 64) 64, Int.tmod (Int.tmod (-1) 64 + 64) 64⟩ ∧
    tileposOf 64 ⟨-64, -1⟩ = ⟨(-64) % 64, (-1) % 64⟩ ∧
    (0 ≤ (tileposOf 64 ⟨-64, -1⟩).x ∧ (tileposOf 64 ⟨-64, -1⟩).x < 64) ∧
    (0 ≤ (tileposOf 64 ⟨-64, -1⟩).y ∧ (tileposOf 64 ⟨-64, -1⟩).y < 64) ∧
    ∀ c : Chunk, Chunk.at 64 c (tileposOf 64 ⟨-64, -1⟩)
      = Except.ok (c.tiles (tileposOf 64 ⟨-64, -1⟩))) :=
  ⟨by decide, tileposOf_wrap_in_range 64 (by decide) ⟨-64, -1⟩⟩

/-! ## The chunk map -/

theorem mapFind_mapAssign_same (m : ChunkMap) (k : lvec2) (v : ChunkPtr) :
    mapFind (mapAssign m k v) k = some v := by
  induction m with
  | nil => simp [mapAssign, mapFind]
  | cons e m ih =>
    obtain ⟨k', v'⟩ := e
    by_cases hk : k' = k
    · simp [mapAssign, mapFind, hk]
    · simp [mapAssign, mapFind, hk, ih]

theorem mapFind_mapAssign_ne (m : ChunkMap) (k k' : lvec2) (v : ChunkPtr) (hne : k' ≠ k) :
    mapFind (mapAssign m k v) k' = mapFind m k' := by
  induction m with
  | nil =>
    have : ¬ k = k' := fun h => hne h.symm
    simp [mapAssign, mapFind, this]
  | cons e m ih =>
    obtain ⟨k1, v1⟩ := e
    by_cases hk : k1 = k
    · subst hk
      have : ¬ k1 = k' := fun h => hne h.symm
      simp [mapAssign, mapFind, this]
    · by_cases hk' : k1 = k'
      · subst hk'
        simp [mapAssign, mapFind, hk]
      · simp [mapAssign, mapFind, hk, hk', ih]

theorem length_mapAssign_unmapped (m : ChunkMap) (k : lvec2) (v : ChunkPtr)
    (h : mapFind m k = none) : (mapAssign m k v).length = m.length + 1 := by
  induction m with
  | nil => simp [mapAssign]
  | cons e m ih =>
    obtain ⟨k', v'⟩ := e
    by_cases hk : k' = k
    · simp [mapFind, hk] at h
    · simp only [mapFind, hk, if_false] at h
      simp [mapAssign, hk, ih h]

theorem length_mapAssign_mapped (m : ChunkMap) (k : lvec2) (v v0 : ChunkPtr)
    (h : mapFind m k = some v0) : (mapAssign m k v).length = m.length := by
  induction m with
  | nil => simp [mapFind] at h
  | cons e m ih =>
    obtain ⟨k', v'⟩ := e
    by_cases hk : k' = k
    · simp [mapAssign, hk]
    · simp only [mapFind, hk, if_false] at h
      simp [mapAssign, hk, ih h]

theorem mapKeys_mapAssign_mapped (m : ChunkMap) (k : lvec2) (v v0 : ChunkPtr)
    (h : mapFind m k = some v0) : mapKeys (mapAssign m k v) = mapKeys m := by
  induction m with
  | nil => simp [mapFind] at h
  | cons e m ih =>
    obtain ⟨k', v'⟩ := e
    by_cases hk : k' = k
    · simp [mapAssign, mapKeys, hk]
    · simp only [mapFind, hk, if_false] at h
      have := ih h
      simp only [mapKeys] at this
      simp [mapAssign, mapKeys, hk, this]

/-- The const lookup of `getChunk`: the stored pointer, null for an unmapped
key. -/
theorem getChunkConst_eq (w : WorldContainer) (pos : lvec2) :
    w.getChunkConst pos = (mapFind w.m_chunks (pos + w.m_offset)).getD none := by
  unfold WorldContainer.getChunkConst mapCount
  cases h : mapFind w.m_chunks (pos + w.m_offset) <;> simp

/-! ## `loadChunk` -/

theorem loadChunk_offset (gen : lvec2 → Chunk) (w : WorldContainer) (key : lvec2) :
    (w.loadChunk gen key).2.m_offset = w.m_offset := by
  unfold WorldContainer.loadChunk
  split <;> rfl

theorem loadChunk_find (gen : lvec2 → Chunk) (w : WorldContainer) (key : lvec2) :
    mapFind (w.loadChunk gen key).2.m_chunks key = some (some (w.loadChunk gen key).1) := by
  unfold WorldContainer.loadChunk
  split
  · next a h => simpa using h
  · simp [mapFind_mapAssign_same]

/-- After `loadChunk` a second `loadChunk` of the same key finds the chunk. -/
theorem loadChunk_of_find (gen : lvec2 → Chunk) (w : WorldContainer) (key : lvec2) (a : Nat)
    (h : mapFind w.m_chunks key = some (some a)) : w.loadChunk gen key = (a, w) := by
  unfold WorldContainer.loadChunk
  simp [h]

/-! ## Tile access through `WorldContainer::at` -/

/-- The mutable `at` with a positive chunk size: it never fails, and returns
a reference into the chunk that `loadChunk` yields for the key
`chunkpos + offset`, at the local index `tilepos`. -/
theorem WorldContainer.at_eq (size : Int) (hsize : 0 < size) (gen : lvec2 → Chunk)
    (w : WorldContainer) (p : lvec2) :
    WorldContainer.at size gen w p
      = (Except.ok ⟨(w.loadChunk gen (chunkposOf size p + w.m_offset)).1, tileposOf size p⟩,
          (w.loadChunk gen (chunkposOf size p + w.m_offset)).2) := by
  simp [WorldContainer.at, WorldContainer.offset, Chunk.at, tileposOf_inRange size hsize p,
    Except.map]

/-- C3: for a positive chunk size, every container state (any chunk map,
any offset), every tile index `p` and every tile `T`: writing `T` through
the mutable `at(p)` succeeds (the chunk is materialized by `loadChunk` if
absent), and afterwards both the read-only `at(p)` and the mutable `at(p)`
return `T`. -/
theorem WorldContainer.write_then_read (size : Int) (hsize : 0 < size) (gen : lvec2 → Chunk)
    (w : WorldContainer) (p : lvec2) (T : Tile) :
    (w.write size gen p T).1 = Except.ok () ∧
    (w.write size gen p T).2.atConst size p = Except.ok T ∧
    ((w.write size gen p T).2.read size gen p).1 = Except.ok T := by
  have hfind := loadChunk_find gen w (chunkposOf size p + w.m_offset)
  have hoff := loadChunk_offset gen w (chunkposOf size p + w.m_offset)
  have hw : w.write size gen p T
      = (Except.ok (), (w.loadChunk gen (chunkposOf size p + w.m_offset)).2.store
          ⟨(w.loadChunk gen (chunkposOf size p + w.m_offset)).1, tileposOf size p⟩ T) := by
    simp [WorldContainer.write, WorldContainer.at_eq size hsize]
  rw [hw]
  refine ⟨rfl, ?_, ?_⟩
  · simp only [WorldContainer.atConst, getChunkConst_eq, WorldContainer.store, hoff, hfind,
      Option.getD_some]
    simp [Chunk.at, tileposOf_inRange size hsize p, Chunk.assign]
  · have hl : WorldContainer.loadChunk gen
        ((w.loadChunk gen (chunkposOf size p + w.m_offset)).2.store
          ⟨(w.loadChunk gen (chunkposOf size p + w.m_offset)).1, tileposOf size p⟩ T)
        (chunkposOf size p + w.m_offset)
        = ((w.loadChunk gen (chunkposOf size p + w.m_offset)).1,
            (w.loadChunk gen (chunkposOf size p + w.m_offset)).2.store
              ⟨(w.loadChunk gen (chunkposOf size p + w.m_offset)).1, tileposOf size p⟩ T) :=
      loadChunk_of_find gen _ _ _ hfind
    have hoff2 : ((w.loadChunk gen (chunkposOf size p + w.m_offset)).2.store
          ⟨(w.loadChunk gen (chunkposOf size p + w.m_offset)).1, tileposOf size p⟩ T).m_offset
        = w.m_offset := hoff
    simp only [WorldContainer.read, WorldContainer.at_eq size hsize, hoff2, hl]
    simp [WorldContainer.deref, WorldContainer.store, Chunk.assign]

/-- C3 at `size = 64`, the empty container, the tile index `(-64, 5)` and a
grass tile. -/
theorem WorldContainer.write_then_read_witness :
    (0 : Int) < 64 ∧
    ((WorldContainer.init.write 64 emptyProvider ⟨-64, 5⟩ ⟨TileKind.grass, 1⟩).1 = Except.ok () ∧
    (WorldContainer.init.write 64 emptyProvider ⟨-64, 5⟩ ⟨TileKind.grass, 1⟩).2.atConst 64 ⟨-64, 5⟩
      = Except.ok ⟨TileKind.grass, 1⟩ ∧
    ((WorldContainer.init.write 64 emptyProvider ⟨-64, 5⟩ ⟨TileKind.grass, 1⟩).2.read 64
      emptyProvider ⟨-64, 5⟩).1 = Except.ok ⟨TileKind.grass, 1⟩) :=
  ⟨by decide, WorldContainer.write_then_read 64 (by decide) emptyProvider WorldContainer.init
    ⟨-64, 5⟩ ⟨TileKind.grass, 1⟩⟩

/-- C4: the read-only `WorldContainer::at` is a function of the container
state alone (a const member: it has no output state, the chunk map is the
one it was given). For a positive chunk size it never fails, for every state
and tile index; when the key `chunkpos + offset` resolved for the index is
unmapped, or is mapped to a null pointer, it returns `Tile::null`. -/
theorem WorldContainer.atConst_total (size : Int) (hsize : 0 < size) (w : WorldContainer)
    (p : lvec2) :
    (∃ t, w.atConst size p = Except.ok t) ∧
    (mapFind w.m_chunks (chunkposOf size p + w.m_offset) = none →
      w.atConst size p = Except.ok Tile.null) ∧
    (mapFind w.m_chunks (chunkposOf size p + w.m_offset) = some none →
      w.atConst size p = Except.ok Tile.null) ∧
    (w.getChunkConst (chunkposOf size p) = none → w.atConst size p = Except.ok Tile.null) := by
  refine ⟨?_, ?_, ?_, ?_⟩
  · cases hc : w.getChunkConst (chunkposOf size p) with
    | none => exact ⟨Tile.null, by simp [WorldContainer.atConst, hc]⟩
    | some a =>
      exact ⟨(w.chunkHeap a).tiles (tileposOf size p), by
        simp [WorldContainer.atConst, hc, Chunk.at, tileposOf_inRange size hsize p]⟩
  · intro h
    simp [WorldContainer.atConst, getChunkConst_eq, h]
  · intro h
    simp [WorldContainer.atConst, getChunkConst_eq, h]
  · intro h
    simp [WorldContainer.atConst, h]

/-- C4 at `size = 64`, the empty container and the tile index `(-1, -1)`. -/
theorem WorldContainer.atConst_total_witness :
    (0 : Int) < 64 ∧
    ((∃ t, WorldContainer.init.atConst 64 ⟨-1, -1⟩ = Except.ok t) ∧
    (mapFind WorldContainer.init.m_chunks (chunkposOf 64 ⟨-1, -1⟩ + WorldContainer.init.m_offset)
        = none → WorldContainer.init.atConst 64 ⟨-1, -1⟩ = Except.ok Tile.null) ∧
    (mapFind WorldContainer.init.m_chunks (chunkposOf 64 ⟨-1, -1⟩ + WorldContainer.init.m_offset)
        = some none → WorldContainer.init.atConst 64 ⟨-1, -1⟩ = Except.ok Tile.null) ∧
    (WorldContainer.init.getChunkConst (chunkposOf 64 ⟨-1, -1⟩) = none →
      WorldContainer.init.atConst 64 ⟨-1, -1⟩ = Except.ok Tile.null)) :=
  ⟨by decide, WorldContainer.atConst_total 64 (by decide) WorldContainer.init ⟨-1, -1⟩⟩

/-- C5 (evaluation of the code where the claim fails): on a container with
no chunks the non-const `getChunk((0,0))` returns the null pointer and leaves
the key `(0,0)` in the chunk map, whose size goes from 0 to 1; the const
overload returns the null pointer on the same state. -/
theorem WorldContainer.getChunk_inserts_null_entry :
    (WorldContainer.init.getChunk ⟨0, 0⟩).1 = none ∧
    WorldContainer.init.chunkCount = 0 ∧
    (WorldContainer.init.getChunk ⟨0, 0⟩).2.chunkCount = 1 ∧
    mapKeys WorldContainer.init.m_chunks = [] ∧
    mapKeys (WorldContainer.init.getChunk ⟨0, 0⟩).2.m_chunks = [⟨0, 0⟩] ∧
    WorldContainer.init.getChunkConst ⟨0, 0⟩ = none := by
  decide

/-! ## `shift` -/

theorem shift_m_offset (w : WorldContainer) (d : lvec2) :
    (w.shift d).m_offset = w.m_offset - d := rfl

theorem shift_chunkHeap (w : WorldContainer) (d : lvec2) :
    (w.shift d).chunkHeap = w.chunkHeap := rfl

theorem shift_m_entities (w : WorldContainer) (d : lvec2) :
    (w.shift d).m_entities = w.m_entities.map (fun e => e.shift (-d)) := rfl

theorem shifts_m_offset (w : WorldContainer) (ds : List lvec2) :
    (w.shifts ds).m_offset = w.m_offset - lvec2.sum ds := by
  induction ds generalizing w with
  | nil =>
    apply lvec2.ext <;> simp [WorldContainer.shifts, lvec2.sum]
  | cons d ds ih =>
    have h := ih (w.shift d)
    simp only [WorldContainer.shifts, List.foldl_cons] at h ⊢
    rw [h, shift_m_offset]
    apply lvec2.ext <;> simp [lvec2.sum] <;> omega

theorem shifts_m_entities (w : WorldContainer) (ds : List lvec2) :
    (w.shifts ds).m_entities
      = w.m_entities.map (fun e => (⟨e.pos - lvec2.sum ds⟩ : Entity)) := by
  induction ds generalizing w with
  | nil =>
    simp only [WorldContainer.shifts, List.foldl_nil, lvec2.sum]
    have : (fun e : Entity => (⟨e.pos - 0⟩ : Entity)) = id := by
      funext e
      cases e with
      | mk pos =>
        simp only [id, Entity.mk.injEq]
        apply lvec2.ext <;> simp
    rw [this, List.map_id]
  | cons d ds ih =>
    have h := ih (w.shift d)
    simp only [WorldContainer.shifts, List.foldl_cons] at h ⊢
    rw [h, shift_m_entities, List.map_map]
    apply List.map_congr_left
    intro e _
    simp only [Function.comp, Entity.shift, Entity.mk.injEq]
    apply lvec2.ext <;> simp [lvec2.sum] <;> omega

/-- C6: for every container state and every finite sequence of deltas, after
`shift(d1), ..., shift(dn)` the value of `offset()` is the initial offset
minus the sum of the deltas; from offset `(0,0)`, `shift((1,0))` applied
twice gives `offset() = (-2,0)`; and `shift(a)` followed by `shift(b)` gives
the same offset as `shift(a + b)`. -/
theorem WorldContainer.offset_after_shifts (w : WorldContainer) (ds : List lvec2) (a b : lvec2) :
    (w.shifts ds).offset = w.offset - lvec2.sum ds ∧
    (({ w with m_offset := 0 }.shift ⟨1, 0⟩).shift ⟨1, 0⟩).offset = ⟨-2, 0⟩ ∧
    ((w.shift a).shift b).offset = (w.shift (a + b)).offset := by
  refine ⟨shifts_m_offset w ds, ?_, ?_⟩
  · apply lvec2.ext <;> simp [WorldContainer.offset, shift_m_offset]
  · apply lvec2.ext <;> simp [WorldContainer.offset, shift_m_offset] <;> omega

/-- C8 (evaluation of the code where the claim fails): in the container with
offset `(0,0)`, one chunk fetched at shifted coordinate `(0,0)` and one
entity stored at `(0,0)`, after `shift((1,0))` the entity is stored at
`(-1,0)` and the offset is `(-1,0)`: the world-absolute position of the
entity, stored position plus offset, went from `(0,0)` to `(-2,0)`. The
chunk it stood in is now fetched at shifted coordinate `(1,0)`, and nothing
is fetched at `(-1,0)`, where the entity is. -/
theorem WorldContainer.shift_entities_drift :
    WorldContainer.oneChunkOneEntity.getChunkConst ⟨0, 0⟩ = some 0 ∧
    WorldContainer.oneChunkOneEntity.m_entities.map
        (fun e => e.pos + WorldContainer.oneChunkOneEntity.offset) = [⟨0, 0⟩] ∧
    (WorldContainer.oneChunkOneEntity.shift ⟨1, 0⟩).m_entities.map (fun e => e.pos)
      = [⟨-1, 0⟩] ∧
    (WorldContainer.oneChunkOneEntity.shift ⟨1, 0⟩).offset = ⟨-1, 0⟩ ∧
    (WorldContainer.oneChunkOneEntity.shift ⟨1, 0⟩).m_entities.map
        (fun e => e.pos + (WorldContainer.oneChunkOneEntity.shift ⟨1, 0⟩).offset)
      = [⟨-2, 0⟩] ∧
    (WorldContainer.oneChunkOneEntity.shift ⟨1, 0⟩).getChunkConst ⟨1, 0⟩ = some 0 ∧
    (WorldContainer.oneChunkOneEntity.shift ⟨1, 0⟩).getChunkConst ⟨-1, 0⟩ = none := by
  decide

/-- What `shift` does to the entity list: for every sequence of shifts
summing to `D` every stored position `P` becomes `P - D`, in the same order,
so stored position minus offset is kept while stored position plus offset
moves by `-2 D`; a single `shift(d)` translates every entity of the list
once, by `-d`, in list order. -/
theorem WorldContainer.entities_after_shifts (w : WorldContainer) (ds : List lvec2) (d : lvec2) :
    (w.shifts ds).m_entities
      = w.m_entities.map (fun e => (⟨e.pos - lvec2.sum ds⟩ : Entity)) ∧
    (w.shifts ds).m_entities.map (fun e => e.pos - (w.shifts ds).offset)
      = w.m_entities.map (fun e => e.pos - w.offset) ∧
    (w.shift d).m_entities = w.m_entities.map (fun e => e.shift (-d)) ∧
    (w.shift d).m_entities.map (fun e => e.pos) = w.m_entities.map (fun e => e.pos - d) := by
  refine ⟨shifts_m_entities w ds, ?_, rfl, ?_⟩
  · rw [shifts_m_entities, List.map_map]
    apply List.map_congr_left
    intro e _
    simp only [Function.comp, WorldContainer.offset, shifts_m_offset]
    apply lvec2.ext <;> simp
  · rw [shift_m_entities, List.map_map]
    apply List.map_congr_left
    intro e _
    simp only [Function.comp, Entity.shift]
    apply lvec2.ext <;> simp <;> omega

/-! ## `World` (older implementation) -/

theorem chunkIndex_some (pos : lvec2) (cs : List Chunk) (i : Nat)
    (h : chunkIndex pos cs = some i) :
    i < cs.length ∧ ∀ d : Chunk, (cs.getD i d).getPos = pos := by
  induction cs generalizing i with
  | nil => simp [chunkIndex] at h
  | cons c cs ih =>
    by_cases hc : c.getPos = pos
    · simp only [chunkIndex, hc, if_true, Option.some.injEq] at h
      subst h
      simp [hc]
    · simp only [chunkIndex, hc, if_false, Option.map_eq_some'] at h
      obtain ⟨j, hj, rfl⟩ := h
      obtain ⟨h1, h2⟩ := ih j hj
      refine ⟨by simp; omega, ?_⟩
      intro d
      simpa using h2 d

theorem chunkIndex_append_some (pos : lvec2) (cs l : List Chunk) (i : Nat)
    (h : chunkIndex pos cs = some i) : chunkIndex pos (cs ++ l) = some i := by
  induction cs generalizing i with
  | nil => simp [chunkIndex] at h
  | cons c cs ih =>
    by_cases hc : c.getPos = pos
    · simpa [chunkIndex, hc] using h
    · simp only [chunkIndex, hc, if_false, Option.map_eq_some'] at h
      obtain ⟨j, hj, rfl⟩ := h
      simp [chunkIndex, hc, ih j hj]

theorem chunkIndex_append_create (pos : lvec2) (cs : List Chunk)
    (h : chunkIndex pos cs = none) :
    chunkIndex pos (cs ++ [Chunk.create pos]) = some cs.length := by
  induction cs with
  | nil => simp [chunkIndex, Chunk.create, Chunk.getPos]
  | cons c cs ih =>
    by_cases hc : c.getPos = pos
    · simp [chunkIndex, hc] at h
    · simp only [chunkIndex, hc, if_false, Option.map_eq_none'] at h
      simp [chunkIndex, hc, ih h]

/-- What `World::getChunk` (non-const) returns and leaves behind. -/
theorem World.getChunk_cases (w : World) (pos : lvec2) :
    (∃ i, chunkIndex pos w.chunks = some i ∧ w.getChunk pos = (some i, w)) ∨
    (chunkIndex pos w.chunks = none ∧ w.autogrow = true ∧
      w.getChunk pos
        = (some w.chunks.length, { w with chunks := w.chunks ++ [Chunk.create pos] })) ∨
    (chunkIndex pos w.chunks = none ∧ w.autogrow = false ∧ w.getChunk pos = (none, w)) := by
  cases h : chunkIndex pos w.chunks with
  | some i => exact Or.inl ⟨i, rfl, by simp [World.getChunk, h]⟩
  | none =>
    cases ha : w.autogrow with
    | true => exact Or.inr (Or.inl ⟨rfl, rfl, by simp [World.getChunk, h, ha, World.createChunk]⟩)
    | false => exact Or.inr (Or.inr ⟨rfl, rfl, by simp [World.getChunk, h, ha]⟩)

theorem World.at_of_getChunk_some (size : Int) (hsize : 0 < size) (w w1 : World) (p : ivec2)
    (i : Nat) (h : w.getChunk (chunkposOf size p) = (some i, w1)) :
    World.at size w p = (Except.ok ⟨i, tileposOf size p⟩, w1) := by
  simp [World.at, h, Chunk.at, tileposOf_inRange size hsize p, Except.map]

theorem World.at_of_getChunk_none (size : Int) (w w1 : World) (p : ivec2)
    (h : w.getChunk (chunkposOf size p) = (none, w1)) :
    World.at size w p = (Except.error Error.AddressingFault, w1) := by
  simp [World.at, h]

/-- With `autogrow` on, two mutable accesses whose computed chunk coordinate
`chunkpos` is the same, unmapped one create exactly one chunk. -/
theorem World.at_same_chunkpos_creates_one (size : Int) (hsize : 0 < size) (w : World)
    (p q : ivec2) (hauto : w.autogrow = true)
    (hun : chunkIndex (chunkposOf size p) w.chunks = none)
    (hsame : chunkposOf size q = chunkposOf size p) :
    (World.at size w p).2.chunkCount = w.chunkCount + 1 ∧
    (World.at size (World.at size w p).2 q).2.chunkCount = w.chunkCount + 1 := by
  have h1 : w.getChunk (chunkposOf size p)
      = (some w.chunks.length,
          { w with chunks := w.chunks ++ [Chunk.create (chunkposOf size p)] }) := by
    simp [World.getChunk, hun, hauto, World.createChunk]
  have hp := World.at_of_getChunk_some size hsize w _ p _ h1
  have h2 : World.getChunk { w with chunks := w.chunks ++ [Chunk.create (chunkposOf size p)] }
      (chunkposOf size q)
      = (some w.chunks.length,
          { w with chunks := w.chunks ++ [Chunk.create (chunkposOf size p)] }) := by
    simp [World.getChunk, hsame, chunkIndex_append_create _ _ hun]
  have hq := World.at_of_getChunk_some size hsize _ _ q _ h2
  rw [hp]
  refine ⟨by simp [World.chunkCount], ?_⟩
  simp only [hq]
  simp [World.chunkCount]

/-- C9 (evaluation of the code where the claim fails): with `size = 64` the
tile indices `(-64, 0)` and `(-63, 0)` lie in the same chunk under floored
division, `(-1, 0)`, which is not materialized in a fresh world. With chunk
creation enabled the mutable access at `(-64, 0)` creates one chunk and the
following mutable access at `(-63, 0)` creates a second one, in the older
`World` (autogrow on) and in `WorldContainer` (with a provider) alike. -/
theorem World.two_accesses_create_two_chunks :
    lvec2.floorDiv ⟨-64, 0⟩ 64 = lvec2.floorDiv ⟨-63, 0⟩ 64 ∧
    (World.init true).getChunkConst (lvec2.floorDiv ⟨-64, 0⟩ 64) = none ∧
    (World.init true).chunkCount = 0 ∧
    (World.at 64 (World.init true) ⟨-64, 0⟩).2.chunkCount = 1 ∧
    (World.at 64 (World.at 64 (World.init true) ⟨-64, 0⟩).2 ⟨-63, 0⟩).2.chunkCount = 2 ∧
    WorldContainer.init.getChunkConst (lvec2.floorDiv ⟨-64, 0⟩ 64) = none ∧
    WorldContainer.init.chunkCount = 0 ∧
    (WorldContainer.at 64 emptyProvider WorldContainer.init ⟨-64, 0⟩).2.chunkCount = 1 ∧
    (WorldContainer.at 64 emptyProvider
      (WorldContainer.at 64 emptyProvider WorldContainer.init ⟨-64, 0⟩).2 ⟨-63, 0⟩).2.chunkCount
        = 2 := by
  decide

/-- The search loop finds nothing exactly when no chunk of the vector has
the coordinate. -/
theorem chunkIndex_eq_none_iff (pos : lvec2) (cs : List Chunk) :
    chunkIndex pos cs = none ↔ ∀ c ∈ cs, c.getPos ≠ pos := by
  induction cs with
  | nil => simp [chunkIndex]
  | cons c cs ih =>
    by_cases hc : c.getPos = pos
    · simp [chunkIndex, hc]
    · simp [chunkIndex, hc, ih]

/-- C10: for a positive chunk size, every state of the older `World` and
every tile index `p`, with `chunkpos` the chunk coordinate resolved for `p`:
the mutable tile access `World::operator[]` (and `World::at`, which
delegates to it) fails if and only if no chunk of the chunk collection has
the coordinate `chunkpos` and `autogrow` is off; when it fails the error is
the addressing fault and the world, in particular its chunk collection, is
unchanged; when some chunk of the collection has the coordinate `chunkpos`
the world is unchanged and the access returns, without failing, a reference
to the tile at the local index of `p` inside a chunk of the collection with
that coordinate; when none has it and `autogrow` is on, exactly one new
chunk with that coordinate is appended and the reference points into it. -/
theorem World.at_fails_iff (size : Int) (hsize : 0 < size) (w : World) (p : ivec2) :
    ((∃ e, (World.at size w p).1 = Except.error e) ↔
      ((∀ c ∈ w.chunks, c.getPos ≠ chunkposOf size p) ∧ w.autogrow = false)) ∧
    ((∃ e, (World.at size w p).1 = Except.error e) →
      (World.at size w p).1 = Except.error Error.AddressingFault ∧ (World.at size w p).2 = w) ∧
    ((∃ c ∈ w.chunks, c.getPos = chunkposOf size p) →
      (World.at size w p).2 = w ∧
      ∃ i, (World.at size w p).1 = Except.ok ⟨i, tileposOf size p⟩ ∧
        i < w.chunks.length ∧ (w.chunkObj i).getPos = chunkposOf size p) ∧
    ((∀ c ∈ w.chunks, c.getPos ≠ chunkposOf size p) → w.autogrow = true →
      (World.at size w p).1 = Except.ok ⟨w.chunks.length, tileposOf size p⟩ ∧
      (World.at size w p).2.chunks = w.chunks ++ [Chunk.create (chunkposOf size p)] ∧
      ((World.at size w p).2.chunkObj w.chunks.length).getPos = chunkposOf size p) ∧
    Chunk.inRange size (tileposOf size p) = true := by
  have hr := tileposOf_inRange size hsize p
  have hnone := chunkIndex_eq_none_iff (chunkposOf size p) w.chunks
  rcases World.getChunk_cases w (chunkposOf size p) with ⟨i, hi, hg⟩ | ⟨hn, ha, hg⟩ | ⟨hn, ha, hg⟩
  · have hat := World.at_of_getChunk_some size hsize w w p i hg
    obtain ⟨hlt, hpos⟩ := chunkIndex_some _ _ _ hi
    have hsome : ¬ ∀ c ∈ w.chunks, c.getPos ≠ chunkposOf size p := by
      intro h
      rw [hnone.mpr h] at hi
      simp at hi
    rw [hat]
    refine ⟨⟨?_, ?_⟩, ?_, ?_, ?_, hr⟩
    · rintro ⟨e, he⟩
      simp at he
    · rintro ⟨h1, _⟩
      exact absurd h1 hsome
    · rintro ⟨e, he⟩
      simp at he
    · intro _
      exact ⟨rfl, i, rfl, hlt, hpos _⟩
    · intro h1
      exact absurd h1 hsome
  · have hat := World.at_of_getChunk_some size hsize w _ p _ hg
    have hall := hnone.mp hn
    rw [hat]
    refine ⟨⟨?_, ?_⟩, ?_, ?_, ?_, hr⟩
    · rintro ⟨e, he⟩
      simp at he
    · rintro ⟨_, h2⟩
      simp [ha] at h2
    · rintro ⟨e, he⟩
      simp at he
    · rintro ⟨c, hc, hcp⟩
      exact absurd hcp (hall c hc)
    · intro _ _
      refine ⟨rfl, rfl, ?_⟩
      simp [World.chunkObj, Chunk.create, Chunk.getPos]
  · have hat := World.at_of_getChunk_none size w w p hg
    have hall := hnone.mp hn
    rw [hat]
    refine ⟨⟨?_, ?_⟩, ?_, ?_, ?_, hr⟩
    · intro _
      exact ⟨hall, ha⟩
    · intro _
      exact ⟨_, rfl⟩
    · intro _
      exact ⟨rfl, rfl⟩
    · rintro ⟨c, hc, hcp⟩
      exact absurd hcp (hall c hc)
    · intro _ h2
      simp [ha] at h2

/-- C10 at `size = 64`, the world with `autogrow` off whose only chunk has
coordinate `(-1, -1)`, and the tile index `(-1, -1)`, which lies in it. -/
theorem World.at_fails_iff_witness :
    (0 : Int) < 64 ∧
    (((∃ e, (World.at 64 World.oneChunk ⟨-1, -1⟩).1 = Except.error e) ↔
      ((∀ c ∈ World.oneChunk.chunks, c.getPos ≠ chunkposOf 64 ⟨-1, -1⟩) ∧
        World.oneChunk.autogrow = false)) ∧
    ((∃ e, (World.at 64 World.oneChunk ⟨-1, -1⟩).1 = Except.error e) →
      (World.at 64 World.oneChunk ⟨-1, -1⟩).1 = Except.error Error.AddressingFault ∧
        (World.at 64 World.oneChunk ⟨-1, -1⟩).2 = World.oneChunk) ∧
    ((∃ c ∈ World.oneChunk.chunks, c.getPos = chunkposOf 64 ⟨-1, -1⟩) →
      (World.at 64 World.oneChunk ⟨-1, -1⟩).2 = World.oneChunk ∧
      ∃ i, (World.at 64 World.oneChunk ⟨-1, -1⟩).1 = Except.ok ⟨i, tileposOf 64 ⟨-1, -1⟩⟩ ∧
        i < World.oneChunk.chunks.length ∧
        (World.oneChunk.chunkObj i).getPos = chunkposOf 64 ⟨-1, -1⟩) ∧
    ((∀ c ∈ World.oneChunk.chunks, c.getPos ≠ chunkposOf 64 ⟨-1, -1⟩) →
      World.oneChunk.autogrow = true →
      (World.at 64 World.oneChunk ⟨-1, -1⟩).1
        = Except.ok ⟨World.oneChunk.chunks.length, tileposOf 64 ⟨-1, -1⟩⟩ ∧
      (World.at 64 World.oneChunk ⟨-1, -1⟩).2.chunks
        = World.oneChunk.chunks ++ [Chunk.create (chunkposOf 64 ⟨-1, -1⟩)] ∧
      ((World.at 64 World.oneChunk ⟨-1, -1⟩).2.chunkObj World.oneChunk.chunks.length).getPos
        = chunkposOf 64 ⟨-1, -1⟩) ∧
    Chunk.inRange 64 (tileposOf 64 ⟨-1, -1⟩) = true) :=
  ⟨by decide, World.at_fails_iff 64 (by decide) World.oneChunk ⟨-1, -1⟩⟩

/-! ## Shifted and absolute chunk operations -/

/-- C11: for every container state with offset `o`, chunk position `pos` and
chunk pointer `c`, the shifted operations are the absolute operations applied
at `pos + o`: `setChunk(pos, c)` yields the same state as
`setChunkAbsolute(pos + o, c)`, `eraseChunk(pos)` the same state as
`eraseChunkAbsolute(pos + o)`, and `getChunk(pos)` (either overload) the same
result and the same resulting state as `getChunkAbsolute(pos + o)`; none of
them changes the offset. -/
theorem WorldContainer.shifted_eq_absolute (w : WorldContainer) (pos : lvec2) (c : ChunkPtr) :
    w.setChunk pos c = w.setChunkAbsolute (pos + w.offset) c ∧
    w.eraseChunk pos = w.eraseChunkAbsolute (pos + w.offset) ∧
    w.getChunk pos = w.getChunkAbsolute (pos + w.offset) ∧
    w.getChunkConst pos = w.getChunkAbsoluteConst (pos + w.offset) ∧
    (w.setChunk pos c).offset = w.offset ∧
    (w.eraseChunk pos).offset = w.offset ∧
    (w.getChunk pos).2.offset = w.offset ∧
    (w.setChunkAbsolute pos c).offset = w.offset ∧
    (w.eraseChunkAbsolute pos).offset = w.offset ∧
    (w.getChunkAbsolute pos).2.offset = w.offset :=
  ⟨rfl, rfl, rfl, rfl, rfl, rfl, rfl, rfl, rfl, rfl⟩

/-- C18: for every container state and delta, `shift(delta)` leaves the
chunk map unchanged (same absolute keys, each mapped to the same chunk
object, the chunk objects and their tiles untouched) and leaves the length
and the order of the entity list unchanged: the entity at each position of
the list is the former one translated by `-delta`. -/
theorem WorldContainer.shift_frame (w : WorldContainer) (d : lvec2) :
    (w.shift d).m_chunks = w.m_chunks ∧
    mapKeys (w.shift d).m_chunks = mapKeys w.m_chunks ∧
    (w.shift d).chunkCount = w.chunkCount ∧
    (w.shift d).chunkHeap = w.chunkHeap ∧
    (w.shift d).chunkNext = w.chunkNext ∧
    (w.shift d).m_entities.length = w.m_entities.length ∧
    (w.shift d).m_entities = w.m_entities.map (fun e => e.shift (-d)) ∧
    (w.shift d).m_offset = w.m_offset - d := by
  refine ⟨rfl, rfl, rfl, rfl, rfl, ?_, rfl, rfl⟩
  simp [WorldContainer.shift]

/-! ## Sequences of tile assignments -/

theorem Chunk.at_of_inRange (size : Int) (c : Chunk) (idx : ivec2)
    (h : Chunk.inRange size idx = true) : Chunk.at size c idx = Except.ok (c.tiles idx) := by
  simp [Chunk.at, h]

theorem Chunk.at_of_not_inRange (size : Int) (c : Chunk) (idx : ivec2)
    (h : Chunk.inRange size idx = false) : Chunk.at size c idx = Except.error Error.OutOfRange := by
  simp [Chunk.at, h]

theorem Chunk.writeAll_cons_inRange (size : Int) (c : Chunk) (idx : ivec2) (t : Tile)
    (ws : List (ivec2 × Tile)) (h : Chunk.inRange size idx = true) :
    Chunk.writeAll size c ((idx, t) :: ws) = Chunk.writeAll size (c.assign idx t) ws := by
  simp [Chunk.writeAll, Chunk.at_of_inRange size c idx h]

theorem Chunk.writeAll_cons_not_inRange (size : Int) (c : Chunk) (idx : ivec2) (t : Tile)
    (ws : List (ivec2 × Tile)) (h : Chunk.inRange size idx = false) :
    Chunk.writeAll size c ((idx, t) :: ws) = (Except.error Error.OutOfRange, c) := by
  simp [Chunk.writeAll, Chunk.at_of_not_inRange size c idx h]

/-- Assignments never change the coordinate of the chunk. -/
theorem Chunk.writeAll_pos (size : Int) (c : Chunk) (ws : List (ivec2 × Tile)) :
    (Chunk.writeAll size c ws).2.pos = c.pos := by
  induction ws generalizing c with
  | nil => rfl
  | cons w ws ih =>
    obtain ⟨idx, t⟩ := w
    cases h : Chunk.inRange size idx with
    | true => rw [Chunk.writeAll_cons_inRange size c idx t ws h, ih]; rfl
    | false => rw [Chunk.writeAll_cons_not_inRange size c idx t ws h]

/-- The outcome and the tiles after a sequence of assignments depend on the
tiles before only, not on the coordinate of the chunk. -/
theorem Chunk.writeAll_congr (size : Int) (c1 c2 : Chunk) (ws : List (ivec2 × Tile))
    (h : c1.tiles = c2.tiles) :
    (Chunk.writeAll size c1 ws).1 = (Chunk.writeAll size c2 ws).1 ∧
    (Chunk.writeAll size c1 ws).2.tiles = (Chunk.writeAll size c2 ws).2.tiles := by
  induction ws generalizing c1 c2 with
  | nil => exact ⟨rfl, h⟩
  | cons w ws ih =>
    obtain ⟨idx, t⟩ := w
    cases hr : Chunk.inRange size idx with
    | true =>
      rw [Chunk.writeAll_cons_inRange size c1 idx t ws hr,
        Chunk.writeAll_cons_inRange size c2 idx t ws hr]
      apply ih
      simp [Chunk.assign, h]
    | false =>
      rw [Chunk.writeAll_cons_not_inRange size c1 idx t ws hr,
        Chunk.writeAll_cons_not_inRange size c2 idx t ws hr]
      exact ⟨rfl, h⟩

/-- A sequence of in-range assignments does not fail. -/
theorem Chunk.writeAll_ok (size : Int) (c : Chunk) (ws : List (ivec2 × Tile))
    (h : ∀ w ∈ ws, Chunk.inRange size w.1 = true) :
    (Chunk.writeAll size c ws).1 = Except.ok () := by
  induction ws generalizing c with
  | nil => rfl
  | cons w ws ih =>
    obtain ⟨idx, t⟩ := w
    have hr : Chunk.inRange size idx = true := h (idx, t) (List.mem_cons_self _ _)
    rw [Chunk.writeAll_cons_inRange size c idx t ws hr]
    exact ih _ (fun w hw => h w (List.mem_cons_of_mem _ hw))

/-- An index that no assignment of the sequence targets keeps its tile. -/
theorem Chunk.writeAll_tiles_of_not_mem (size : Int) (c : Chunk) (ws : List (ivec2 × Tile))
    (idx : ivec2) (h : ∀ w ∈ ws, w.1 ≠ idx) :
    (Chunk.writeAll size c ws).2.tiles idx = c.tiles idx := by
  induction ws generalizing c with
  | nil => rfl
  | cons w ws ih =>
    obtain ⟨i0, t0⟩ := w
    have hne : idx ≠ i0 := fun e => h (i0, t0) (List.mem_cons_self _ _) e.symm
    cases hr : Chunk.inRange size i0 with
    | true =>
      rw [Chunk.writeAll_cons_inRange size c i0 t0 ws hr,
        ih _ (fun w hw => h w (List.mem_cons_of_mem _ hw))]
      simp [Chunk.assign, hne]
    | false => rw [Chunk.writeAll_cons_not_inRange size c i0 t0 ws hr]

/-- An index targeted by an in-range sequence all of whose assignments to it
carry the tile `t` holds `t` afterwards. -/
theorem Chunk.writeAll_tiles_of_mem (size : Int) (c : Chunk) (ws : List (ivec2 × Tile))
    (idx : ivec2) (t : Tile) (hr : ∀ w ∈ ws, Chunk.inRange size w.1 = true)
    (hf : ∀ w ∈ ws, w.1 = idx → w.2 = t) (hm : ∃ w ∈ ws, w.1 = idx) :
    (Chunk.writeAll size c ws).2.tiles idx = t := by
  induction ws generalizing c with
  | nil =>
    obtain ⟨w, hw, _⟩ := hm
    simp at hw
  | cons w ws ih =>
    obtain ⟨i0, t0⟩ := w
    have hr0 : Chunk.inRange size i0 = true := hr (i0, t0) (List.mem_cons_self _ _)
    rw [Chunk.writeAll_cons_inRange size c i0 t0 ws hr0]
    by_cases hrest : ∃ w ∈ ws, w.1 = idx
    · exact ih _ (fun w hw => hr w (List.mem_cons_of_mem _ hw))
        (fun w hw => hf w (List.mem_cons_of_mem _ hw)) hrest
    · have hnot : ∀ w ∈ ws, w.1 ≠ idx := fun w hw e => hrest ⟨w, hw, e⟩
      rw [Chunk.writeAll_tiles_of_not_mem size _ ws idx hnot]
      obtain ⟨w, hw, hwi⟩ := hm
      rcases List.mem_cons.mp hw with rfl | hw'
      · have ht : t0 = t := hf (i0, t0) (List.mem_cons_self _ _) hwi
        have hi : i0 = idx := hwi
        simp [Chunk.assign, hi, ht]
      · exact absurd hwi (hnot w hw')

/-! ## `WorldGenerator::getChunk` -/

theorem WorldGenerator.buildChunkWith_below (newChunk : WorldContainer → lvec2 → vec2 → Chunk)
    (size : Int) (groundY : Int → Int) (g : WorldGenerator) (pos : lvec2) (h : pos.y < -1) :
    WorldGenerator.buildChunkWith newChunk size groundY g pos
      = Except.ok ((newChunk g.container pos g.tileScale).fill TileKind.rock) := by
  have h1 : ¬ pos.y = -1 := by omega
  simp [WorldGenerator.buildChunkWith, h1, h]

theorem WorldGenerator.buildChunkWith_above (newChunk : WorldContainer → lvec2 → vec2 → Chunk)
    (size : Int) (groundY : Int → Int) (g : WorldGenerator) (pos : lvec2) (h : 0 ≤ pos.y) :
    WorldGenerator.buildChunkWith newChunk size groundY g pos
      = Except.ok (newChunk g.container pos g.tileScale) := by
  have h1 : ¬ pos.y = -1 := by omega
  have h2 : ¬ pos.y < -1 := by omega
  simp [WorldGenerator.buildChunkWith, h1, h2]

/-- On the surface row the outcome is that of the assignment sequence. -/
theorem WorldGenerator.buildChunkWith_surface
    (newChunk : WorldContainer → lvec2 → vec2 → Chunk) (size : Int) (groundY : Int → Int)
    (g : WorldGenerator) (pos : lvec2) (h : pos.y = -1) :
    WorldGenerator.buildChunkWith newChunk size groundY g pos
      = (Chunk.writeAll size (newChunk g.container pos g.tileScale)
          (WorldGenerator.surfaceWrites size groundY)).1.map
        (fun _ => (Chunk.writeAll size (newChunk g.container pos g.tileScale)
          (WorldGenerator.surfaceWrites size groundY)).2) := by
  simp only [WorldGenerator.buildChunkWith, h, if_true]
  cases hw : Chunk.writeAll size (newChunk g.container pos g.tileScale)
      (WorldGenerator.surfaceWrites size groundY) with
  | mk r c =>
    cases r with
    | ok u => simp [Except.map]
    | error e => simp [Except.map]

theorem WorldGenerator.buildChunk_below (size : Int) (groundY : Int → Int) (g : WorldGenerator)
    (pos : lvec2) (h : pos.y < -1) :
    WorldGenerator.buildChunk size groundY g pos
      = Except.ok ((Chunk.new g.container pos g.tileScale).fill TileKind.rock) :=
  WorldGenerator.buildChunkWith_below Chunk.new size groundY g pos h

theorem WorldGenerator.buildChunk_above (size : Int) (groundY : Int → Int) (g : WorldGenerator)
    (pos : lvec2) (h : 0 ≤ pos.y) :
    WorldGenerator.buildChunk size groundY g pos
      = Except.ok (Chunk.new g.container pos g.tileScale) :=
  WorldGenerator.buildChunkWith_above Chunk.new size groundY g pos h

/-- On the surface row the outcome is that of the assignment sequence. -/
theorem WorldGenerator.buildChunk_surface (size : Int) (groundY : Int → Int)
    (g : WorldGenerator) (pos : lvec2) (h : pos.y = -1) :
    WorldGenerator.buildChunk size groundY g pos
      = (Chunk.writeAll size (Chunk.new g.container pos g.tileScale)
          (WorldGenerator.surfaceWrites size groundY)).1.map
        (fun _ => (Chunk.writeAll size (Chunk.new g.container pos g.tileScale)
          (WorldGenerator.surfaceWrites size groundY)).2) :=
  WorldGenerator.buildChunkWith_surface Chunk.new size groundY g pos h

/-- A chunk returned by the generator carries the requested coordinate. -/
theorem WorldGenerator.buildChunk_pos (size : Int) (groundY : Int → Int) (g : WorldGenerator)
    (pos : lvec2) (c : Chunk) (h : WorldGenerator.buildChunk size groundY g pos = Except.ok c) :
    c.getPos = pos := by
  by_cases h1 : pos.y = -1
  · rw [WorldGenerator.buildChunk_surface size groundY g pos h1] at h
    cases hr : (Chunk.writeAll size (Chunk.new g.container pos g.tileScale)
        (WorldGenerator.surfaceWrites size groundY)).1 with
    | ok u =>
      rw [hr] at h
      simp only [Except.map, Except.ok.injEq] at h
      rw [← h, Chunk.getPos, Chunk.writeAll_pos]
      rfl
    | error e =>
      rw [hr] at h
      simp [Except.map] at h
  · by_cases h2 : pos.y < -1
    · rw [WorldGenerator.buildChunk_below size groundY g pos h2] at h
      simp only [Except.ok.injEq] at h
      rw [← h]; rfl
    · rw [WorldGenerator.buildChunk_above size groundY g pos (by omega)] at h
      simp only [Except.ok.injEq] at h
      rw [← h]; rfl

/-- C14: for every chunk coordinate the chunk returned by
`WorldGenerator::getChunk` carries that coordinate; if the y component is
below `-1` a chunk is returned and every tile of it is rock with variant 0;
if the y component is at least 0 a chunk is returned and every tile of it is
the default empty tile. -/
theorem WorldGenerator.getChunk_rock_or_empty (size : Int) (groundY : Int → Int)
    (g : WorldGenerator) (pos : lvec2) :
    (∀ c, (g.getChunk size groundY pos).1 = Except.ok c → c.getPos = pos) ∧
    (pos.y < -1 →
      ∃ c, (g.getChunk size groundY pos).1 = Except.ok c ∧ c.getPos = pos ∧
        (∀ idx, c.tiles idx = ⟨TileKind.rock, 0⟩) ∧
        ∀ idx, Chunk.inRange size idx = true →
          Chunk.at size c idx = Except.ok ⟨TileKind.rock, 0⟩) ∧
    (0 ≤ pos.y →
      ∃ c, (g.getChunk size groundY pos).1 = Except.ok c ∧ c.getPos = pos ∧
        (∀ idx, c.tiles idx = Tile.default) ∧
        ∀ idx, Chunk.inRange size idx = true →
          Chunk.at size c idx = Except.ok Tile.default) := by
  refine ⟨?_, ?_, ?_⟩
  · intro c hc
    exact WorldGenerator.buildChunk_pos size groundY g pos c hc
  · intro h
    refine ⟨(Chunk.new g.container pos g.tileScale).fill TileKind.rock,
      WorldGenerator.buildChunk_below size groundY g pos h, rfl, fun _ => rfl, ?_⟩
    intro idx hidx
    rw [Chunk.at_of_inRange size _ idx hidx]
    rfl
  · intro h
    refine ⟨Chunk.new g.container pos g.tileScale, WorldGenerator.buildChunk_above size groundY g pos h, rfl,
      fun _ => rfl, ?_⟩
    intro idx hidx
    rw [Chunk.at_of_inRange size _ idx hidx]
    rfl

/-- C14 at `size = 64` and the chunk coordinate `(3, -2)`, deep underground. -/
theorem WorldGenerator.getChunk_rock_or_empty_witness :
    (⟨3, -2⟩ : lvec2).y < -1 ∧
    ∃ c, (WorldGenerator.init.getChunk 64 referenceGroundY64 ⟨3, -2⟩).1 = Except.ok c ∧
      c.getPos = ⟨3, -2⟩ ∧
      (∀ idx, c.tiles idx = ⟨TileKind.rock, 0⟩) ∧
      ∀ idx, Chunk.inRange 64 idx = true →
        Chunk.at 64 c idx = Except.ok ⟨TileKind.rock, 0⟩ :=
  ⟨by decide,
    (WorldGenerator.getChunk_rock_or_empty 64 referenceGroundY64 WorldGenerator.init
      ⟨3, -2⟩).2.1 (by decide)⟩

/-- The tiles and the coordinate of the outcome of the generator body do
not depend on the generator state, for every `Chunk` constructor that sets
the coordinate and makes all tiles default. -/
theorem WorldGenerator.buildChunkWith_congr (newChunk : WorldContainer → lvec2 → vec2 → Chunk)
    (hpos : ∀ c pos s, (newChunk c pos s).pos = pos)
    (htiles : ∀ c pos s idx, (newChunk c pos s).tiles idx = Tile.default)
    (size : Int) (groundY : Int → Int) (g1 g2 : WorldGenerator) (pos : lvec2) :
    (WorldGenerator.buildChunkWith newChunk size groundY g1 pos).map
        (fun c => (c.tiles, c.getPos))
      = (WorldGenerator.buildChunkWith newChunk size groundY g2 pos).map
        (fun c => (c.tiles, c.getPos)) := by
  have ht : (newChunk g1.container pos g1.tileScale).tiles
      = (newChunk g2.container pos g2.tileScale).tiles := by
    funext idx
    rw [htiles, htiles]
  by_cases h1 : pos.y = -1
  · obtain ⟨hc1, hc2⟩ := Chunk.writeAll_congr size _ _
      (WorldGenerator.surfaceWrites size groundY) ht
    rw [WorldGenerator.buildChunkWith_surface newChunk size groundY g1 pos h1,
      WorldGenerator.buildChunkWith_surface newChunk size groundY g2 pos h1, ← hc1]
    cases (Chunk.writeAll size (newChunk g1.container pos g1.tileScale)
        (WorldGenerator.surfaceWrites size groundY)).1 with
    | error e => rfl
    | ok u =>
      simp only [Except.map, Except.ok.injEq, Prod.mk.injEq]
      exact ⟨hc2, by rw [Chunk.getPos, Chunk.getPos, Chunk.writeAll_pos, Chunk.writeAll_pos,
        hpos, hpos]⟩
  · by_cases h2 : pos.y < -1
    · rw [WorldGenerator.buildChunkWith_below newChunk size groundY g1 pos h2,
        WorldGenerator.buildChunkWith_below newChunk size groundY g2 pos h2]
      simp only [Except.map, Except.ok.injEq, Prod.mk.injEq]
      exact ⟨rfl, by simp only [Chunk.getPos, Chunk.fill, hpos]⟩
    · rw [WorldGenerator.buildChunkWith_above newChunk size groundY g1 pos (by omega),
        WorldGenerator.buildChunkWith_above newChunk size groundY g2 pos (by omega)]
      simp only [Except.map, Except.ok.injEq, Prod.mk.injEq]
      exact ⟨ht, by simp only [Chunk.getPos, hpos]⟩

/-- C15: for every `Chunk` constructor that meets its contract (the chunk
carries the coordinate it is given and all its tiles are default), whatever
it does with the container and the tile scale: two generators, whatever
container they reference and whatever their tile scale, either raise the
same error or return chunks with the same coordinate and the same tiles; a
second invocation on the same generator returns what the first did; and an
invocation leaves the generator, hence the container it references, as it
was. -/
theorem WorldGenerator.getChunk_deterministic
    (newChunk : WorldContainer → lvec2 → vec2 → Chunk)
    (hpos : ∀ c pos s, (newChunk c pos s).pos = pos)
    (htiles : ∀ c pos s idx, (newChunk c pos s).tiles idx = Tile.default)
    (size : Int) (groundY : Int → Int) (g1 g2 : WorldGenerator) (pos : lvec2) :
    (WorldGenerator.getChunkWith newChunk size groundY g1 pos).1.map Chunk.tiles
      = (WorldGenerator.getChunkWith newChunk size groundY g2 pos).1.map Chunk.tiles ∧
    (WorldGenerator.getChunkWith newChunk size groundY g1 pos).1.map Chunk.getPos
      = (WorldGenerator.getChunkWith newChunk size groundY g2 pos).1.map Chunk.getPos ∧
    (WorldGenerator.getChunkWith newChunk size groundY
        (WorldGenerator.getChunkWith newChunk size groundY g1 pos).2 pos).1
      = (WorldGenerator.getChunkWith newChunk size groundY g1 pos).1 ∧
    (WorldGenerator.getChunkWith newChunk size groundY g1 pos).2 = g1 ∧
    (WorldGenerator.getChunkWith newChunk size groundY g1 pos).2.container = g1.container := by
  have h := WorldGenerator.buildChunkWith_congr newChunk hpos htiles size groundY g1 g2 pos
  refine ⟨?_, ?_, rfl, rfl, rfl⟩
  · simp only [WorldGenerator.getChunkWith]
    cases h1 : WorldGenerator.buildChunkWith newChunk size groundY g1 pos <;>
      cases h2 : WorldGenerator.buildChunkWith newChunk size groundY g2 pos <;>
      simp_all [Except.map]
  · simp only [WorldGenerator.getChunkWith]
    cases h1 : WorldGenerator.buildChunkWith newChunk size groundY g1 pos <;>
      cases h2 : WorldGenerator.buildChunkWith newChunk size groundY g2 pos <;>
      simp_all [Except.map]

/-- C15 for the constructor modelled from the spec, which stores the tile
scale in the chunk, at `size = 64`, the chunk coordinate `(3, -2)` and two
generators with different containers and tile scales. -/
theorem WorldGenerator.getChunk_deterministic_witness :
    ((∀ (c : WorldContainer) (pos : lvec2) (s : vec2), (Chunk.new c pos s).pos = pos) ∧
      (∀ (c : WorldContainer) (pos : lvec2) (s : vec2) (idx : ivec2),
        (Chunk.new c pos s).tiles idx = Tile.default)) ∧
    ((WorldGenerator.getChunkWith Chunk.new 64 referenceGroundY64 WorldGenerator.init
        ⟨3, -2⟩).1.map Chunk.tiles
      = (WorldGenerator.getChunkWith Chunk.new 64 referenceGroundY64 WorldGenerator.other
        ⟨3, -2⟩).1.map Chunk.tiles ∧
    (WorldGenerator.getChunkWith Chunk.new 64 referenceGroundY64 WorldGenerator.init
        ⟨3, -2⟩).1.map Chunk.getPos
      = (WorldGenerator.getChunkWith Chunk.new 64 referenceGroundY64 WorldGenerator.other
        ⟨3, -2⟩).1.map Chunk.getPos ∧
    (WorldGenerator.getChunkWith Chunk.new 64 referenceGroundY64
        (WorldGenerator.getChunkWith Chunk.new 64 referenceGroundY64 WorldGenerator.init
          ⟨3, -2⟩).2 ⟨3, -2⟩).1
      = (WorldGenerator.getChunkWith Chunk.new 64 referenceGroundY64 WorldGenerator.init
        ⟨3, -2⟩).1 ∧
    (WorldGenerator.getChunkWith Chunk.new 64 referenceGroundY64 WorldGenerator.init
        ⟨3, -2⟩).2 = WorldGenerator.init ∧
    (WorldGenerator.getChunkWith Chunk.new 64 referenceGroundY64 WorldGenerator.init
        ⟨3, -2⟩).2.container = WorldGenerator.init.container) :=
  ⟨⟨fun _ _ _ => rfl, fun _ _ _ _ => rfl⟩,
    WorldGenerator.getChunk_deterministic Chunk.new (fun _ _ _ => rfl) (fun _ _ _ _ => rfl)
      64 referenceGroundY64 WorldGenerator.init WorldGenerator.other ⟨3, -2⟩⟩

/-- The generator with the constructor as a parameter, instantiated with
the constructor modelled from the spec, is the embedded `getChunk`; the
chunks two generators return differ in the tile scale they captured. -/
theorem WorldGenerator.getChunkWith_new (size : Int) (groundY : Int → Int)
    (g : WorldGenerator) (pos : lvec2) :
    WorldGenerator.getChunkWith Chunk.new size groundY g pos = g.getChunk size groundY pos ∧
    (WorldGenerator.init.getChunk 64 referenceGroundY64 ⟨3, -2⟩).1.map Chunk.tileScale
      = Except.ok ⟨1, 1⟩ ∧
    (WorldGenerator.other.getChunk 64 referenceGroundY64 ⟨3, -2⟩).1.map Chunk.tileScale
      = Except.ok ⟨2, 3⟩ :=
  ⟨rfl, rfl, rfl⟩

/-- C20: the tiles of the chunk generated by `WorldGenerator::getChunk`
depend on the y component of the chunk coordinate only: for coordinates
`(x1, y)` and `(x2, y)` either both invocations raise the same error or both
return chunks with the same tiles; the chunks returned carry the requested
coordinates. -/
theorem WorldGenerator.getChunk_tiles_depend_on_y (size : Int) (groundY : Int → Int)
    (g : WorldGenerator) (x1 x2 y : Int) :
    (g.getChunk size groundY ⟨x1, y⟩).1.map Chunk.tiles
      = (g.getChunk size groundY ⟨x2, y⟩).1.map Chunk.tiles ∧
    (g.getChunk size groundY ⟨x1, y⟩).1.map Chunk.getPos
      = (g.getChunk size groundY ⟨x1, y⟩).1.map (fun _ => ⟨x1, y⟩) ∧
    (g.getChunk size groundY ⟨x2, y⟩).1.map Chunk.getPos
      = (g.getChunk size groundY ⟨x2, y⟩).1.map (fun _ => ⟨x2, y⟩) := by
  have hpos : ∀ x : Int, (WorldGenerator.buildChunk size groundY g ⟨x, y⟩).map Chunk.getPos
      = (WorldGenerator.buildChunk size groundY g ⟨x, y⟩).map (fun _ => ⟨x, y⟩) := by
    intro x
    cases hb : WorldGenerator.buildChunk size groundY g ⟨x, y⟩ with
    | error e => rfl
    | ok c =>
      have := WorldGenerator.buildChunk_pos size groundY g ⟨x, y⟩ c hb
      simp [Except.map, this]
  refine ⟨?_, hpos x1, hpos x2⟩
  simp only [WorldGenerator.getChunk]
  by_cases h1 : y = -1
  · have e1 := WorldGenerator.buildChunk_surface size groundY g ⟨x1, y⟩ h1
    have e2 := WorldGenerator.buildChunk_surface size groundY g ⟨x2, y⟩ h1
    obtain ⟨hc1, hc2⟩ := Chunk.writeAll_congr size (Chunk.new g.container ⟨x1, y⟩ g.tileScale)
      (Chunk.new g.container ⟨x2, y⟩ g.tileScale)
      (WorldGenerator.surfaceWrites size groundY) rfl
    rw [e1, e2, ← hc1]
    cases (Chunk.writeAll size (Chunk.new g.container ⟨x1, y⟩ g.tileScale)
        (WorldGenerator.surfaceWrites size groundY)).1 with
    | error e => rfl
    | ok u => simp [Except.map, hc2]
  · by_cases h2 : y < -1
    · rw [WorldGenerator.buildChunk_below size groundY g ⟨x1, y⟩ h2,
        WorldGenerator.buildChunk_below size groundY g ⟨x2, y⟩ h2]
      rfl
    · rw [WorldGenerator.buildChunk_above size groundY g ⟨x1, y⟩ (by simp; omega),
        WorldGenerator.buildChunk_above size groundY g ⟨x2, y⟩ (by simp; omega)]
      rfl

/-! ## The surface row of `WorldGenerator::getChunk` -/

/-- In exact arithmetic the expression assigned to `groundY` equals
`Chunk::size` at column 0, where the sine is `-1`. -/
theorem groundY_expression_column_zero (size : ℝ) :
    size - (Real.sin ((0 : ℝ) / size * Real.pi * 2 - Real.pi * 0.5) * 3 + 3) = size := by
  have h : (0 : ℝ) / size * Real.pi * 2 - Real.pi * 0.5 = -(Real.pi / 2) := by ring
  rw [h, Real.sin_neg, Real.sin_pi_div_two]
  ring

theorem WorldGenerator.mem_columnWrites (x gy : Int) (idx : ivec2) (t : Tile) :
    (idx, t) ∈ WorldGenerator.columnWrites x gy ↔
      ∃ i : Nat, (i : Int) ≤ gy ∧ idx = ⟨x, gy - i⟩ ∧ t = WorldGenerator.tileAtDepth i := by
  simp only [WorldGenerator.columnWrites, List.mem_map, List.mem_range, Int.lt_toNat,
    Prod.mk.injEq]
  constructor
  · rintro ⟨i, hi, h1, h2⟩
    exact ⟨i, by omega, h1.symm, h2.symm⟩
  · rintro ⟨i, hi, h1, h2⟩
    exact ⟨i, by omega, h1.symm, h2.symm⟩

theorem WorldGenerator.mem_surfaceWrites (size : Int) (groundY : Int → Int) (idx : ivec2)
    (t : Tile) :
    (idx, t) ∈ WorldGenerator.surfaceWrites size groundY ↔
      ∃ x : Nat, (x : Int) < size ∧ ∃ i : Nat, (i : Int) ≤ groundY x ∧
        idx = ⟨x, groundY x - i⟩ ∧ t = WorldGenerator.tileAtDepth i := by
  simp only [WorldGenerator.surfaceWrites, List.mem_flatMap, List.mem_range, Int.lt_toNat,
    WorldGenerator.mem_columnWrites]

/-- The first assignment of the surface row targets `(0, groundY(0))`. -/
theorem WorldGenerator.surfaceWrites_head (size : Int) (hsize : 0 < size)
    (groundY : Int → Int) (h0 : 0 ≤ groundY 0) :
    ∃ rest, WorldGenerator.surfaceWrites size groundY
      = (⟨0, groundY 0⟩, WorldGenerator.tileAtDepth 0) :: rest := by
  obtain ⟨n, hn⟩ : ∃ n, size.toNat = n + 1 := ⟨size.toNat - 1, by omega⟩
  obtain ⟨m, hm⟩ : ∃ m, (groundY 0 + 1).toNat = m + 1 := ⟨(groundY 0 + 1).toNat - 1, by omega⟩
  simp only [WorldGenerator.surfaceWrites, hn, List.range_succ_eq_map, List.flatMap_cons,
    WorldGenerator.columnWrites, Nat.cast_zero, hm, List.map_cons, Int.sub_zero,
    List.cons_append]
  exact ⟨_, rfl⟩

/-- When the ground height of column 0 is not below `Chunk::size`, the first
assignment of the surface row is out of range and no chunk is produced. -/
theorem WorldGenerator.buildChunk_out_of_range (size : Int) (hsize : 0 < size)
    (groundY : Int → Int) (h0 : size ≤ groundY 0) (g : WorldGenerator) (pos : lvec2)
    (hy : pos.y = -1) :
    WorldGenerator.buildChunk size groundY g pos = Except.error Error.OutOfRange := by
  obtain ⟨rest, hrest⟩ := WorldGenerator.surfaceWrites_head size hsize groundY (by omega)
  have hr : Chunk.inRange size ⟨0, groundY 0⟩ = false := by
    simp [Chunk.inRange]
    omega
  rw [WorldGenerator.buildChunk_surface size groundY g pos hy, hrest,
    Chunk.writeAll_cons_not_inRange size _ _ _ _ hr]
  rfl

/-- When every column of the chunk has its ground height below `Chunk::size`,
the surface row is produced and layered by depth below the ground: at depth
`i` the tile is `tileAtDepth i`, and above the ground the tiles stay
default. -/
theorem WorldGenerator.buildChunk_layers (size : Int) (groundY : Int → Int)
    (hin : ∀ x : Int, 0 ≤ x → x < size → groundY x < size) (g : WorldGenerator) (pos : lvec2)
    (hy : pos.y = -1) :
    ∃ c, WorldGenerator.buildChunk size groundY g pos = Except.ok c ∧
      ∀ x : Int, 0 ≤ x → x < size →
        (∀ i : Int, 0 ≤ i → i ≤ groundY x →
          c.tiles ⟨x, groundY x - i⟩ = WorldGenerator.tileAtDepth i) ∧
        (∀ y : Int, groundY x < y → c.tiles ⟨x, y⟩ = Tile.default) := by
  have hrange : ∀ w ∈ WorldGenerator.surfaceWrites size groundY,
      Chunk.inRange size w.1 = true := by
    rintro ⟨idx, t⟩ hw
    obtain ⟨x, hx, i, hi, rfl, _⟩ := (WorldGenerator.mem_surfaceWrites size groundY idx t).mp hw
    have := hin x (by omega) hx
    simp [Chunk.inRange]
    omega
  have hok := Chunk.writeAll_ok size (Chunk.new g.container pos g.tileScale) _ hrange
  refine ⟨(Chunk.writeAll size (Chunk.new g.container pos g.tileScale)
    (WorldGenerator.surfaceWrites size groundY)).2, ?_, ?_⟩
  · rw [WorldGenerator.buildChunk_surface size groundY g pos hy, hok]
    rfl
  · intro x hx0 hx
    obtain ⟨xn, rfl⟩ := Int.eq_ofNat_of_zero_le hx0
    refine ⟨?_, ?_⟩
    · intro i hi0 hi
      obtain ⟨n, rfl⟩ := Int.eq_ofNat_of_zero_le hi0
      apply Chunk.writeAll_tiles_of_mem size _ _ _ _ hrange
      · rintro ⟨idx, t⟩ hw hidx
        obtain ⟨x', _, i', _, hidx', ht⟩ :=
          (WorldGenerator.mem_surfaceWrites size groundY idx t).mp hw
        simp only at hidx
        rw [hidx'] at hidx
        simp only [lvec2.mk.injEq] at hidx
        obtain ⟨e1, e2⟩ := hidx
        have ex : x' = xn := by exact_mod_cast e1
        subst ex
        have ei : (i' : Int) = n := by omega
        simp only [ht, ei]
      · exact ⟨(⟨xn, groundY xn - n⟩, WorldGenerator.tileAtDepth n),
          (WorldGenerator.mem_surfaceWrites size groundY _ _).mpr ⟨xn, hx, n, hi, rfl, rfl⟩, rfl⟩
    · intro y hyg
      rw [Chunk.writeAll_tiles_of_not_mem size _ _ ⟨xn, y⟩]
      · rfl
      · rintro ⟨idx, t⟩ hw hidx
        obtain ⟨x', _, i', _, hidx', _⟩ :=
          (WorldGenerator.mem_surfaceWrites size groundY idx t).mp hw
        simp only at hidx
        rw [hidx'] at hidx
        simp only [lvec2.mk.injEq] at hidx
        obtain ⟨e1, e2⟩ := hidx
        have ex : x' = xn := by exact_mod_cast e1
        subst ex
        omega

/-- C16 (evaluation of the code where the claim fails): with `size = 64` the
ground height of column 0 is 64, so the first assignment of the surface row
targets the local index `(0, 64)`, which fails the bounds test of
`Chunk::at`; generating a chunk of the surface row raises `OutOfRange`. -/
theorem WorldGenerator.surface_write_out_of_range :
    referenceGroundY64 0 = 64 ∧
    (WorldGenerator.surfaceWrites 64 referenceGroundY64).head?
      = some (⟨0, 64⟩, ⟨TileKind.grass, 0⟩) ∧
    Chunk.inRange 64 ⟨0, 64⟩ = false ∧
    (WorldGenerator.init.getChunk 64 referenceGroundY64 ⟨0, -1⟩).1
      = Except.error Error.OutOfRange := by
  refine ⟨by decide, ?_, by decide, ?_⟩
  · obtain ⟨rest, h⟩ :=
      WorldGenerator.surfaceWrites_head 64 (by decide) referenceGroundY64 (by decide)
    rw [h]
    rfl
  · exact WorldGenerator.buildChunk_out_of_range 64 (by decide) referenceGroundY64 (by decide)
      WorldGenerator.init ⟨0, -1⟩ rfl

/-- C12 (evaluation of the code where the claim fails): with `size = 64` the
request for chunk `(-1, -1)` raises `OutOfRange` and returns no chunk; in
column 0 the loop starts at row 64 with grass variant 0 and reaches row 63
at depth 1, so every assignment to the local index `(0, 63)` carries grass
with variant 1. -/
theorem WorldGenerator.surface_tile_column_zero :
    (WorldGenerator.init.getChunk 64 referenceGroundY64 ⟨-1, -1⟩).1
      = Except.error Error.OutOfRange ∧
    (WorldGenerator.columnWrites 0 (referenceGroundY64 0)).take 2
      = [(⟨0, 64⟩, ⟨TileKind.grass, 0⟩), (⟨0, 63⟩, ⟨TileKind.grass, 1⟩)] ∧
    ∀ w ∈ WorldGenerator.surfaceWrites 64 referenceGroundY64,
      w.1 = ⟨0, 63⟩ → w.2 = ⟨TileKind.grass, 1⟩ := by
  refine ⟨?_, by decide, ?_⟩
  · exact WorldGenerator.buildChunk_out_of_range 64 (by decide) referenceGroundY64 (by decide)
      WorldGenerator.init ⟨-1, -1⟩ rfl
  · rintro ⟨idx, t⟩ hw hidx
    obtain ⟨x, _, i, _, hidx', ht⟩ :=
      (WorldGenerator.mem_surfaceWrites 64 referenceGroundY64 idx t).mp hw
    simp only at hidx
    rw [hidx'] at hidx
    simp only [lvec2.mk.injEq] at hidx
    obtain ⟨e1, e2⟩ := hidx
    have ex : x = 0 := by exact_mod_cast e1
    subst ex
    have h64 : referenceGroundY64 ((0 : Nat) : Int) = 64 := by decide
    rw [h64] at e2
    have ei : (i : Int) = 1 := by omega
    simp only [ht, ei]
    decide

/-- C13 (evaluation of the code where the claim fails): whenever the ground
height of column 0 equals the chunk size, as the height expression does in
exact arithmetic, the tile at depth 0 of column 0 is addressed at the local
index `(0, size)`, outside the chunk; the assignment is the first of the
surface row and generation of every chunk with y component `-1` raises
`OutOfRange`. -/
theorem WorldGenerator.surface_fails_at_column_zero (size : Int) (hsize : 0 < size)
    (groundY : Int → Int) (h0 : groundY 0 = size) (g : WorldGenerator) (cx : Int) :
    Chunk.inRange size ⟨0, groundY 0 - 0⟩ = false ∧
    (⟨0, groundY 0 - 0⟩, WorldGenerator.tileAtDepth 0)
      ∈ WorldGenerator.surfaceWrites size groundY ∧
    (g.getChunk size groundY ⟨cx, -1⟩).1 = Except.error Error.OutOfRange := by
  refine ⟨?_, ?_, ?_⟩
  · simp [Chunk.inRange, h0]
  · exact (WorldGenerator.mem_surfaceWrites size groundY _ _).mpr
      ⟨0, by simpa using hsize, 0, by simp [h0]; omega, by simp, by simp⟩
  · exact WorldGenerator.buildChunk_out_of_range size hsize groundY (by omega) g ⟨cx, -1⟩ rfl

/-- C13 at `size = 64`, the reference ground heights and chunk `(0, -1)`. -/
theorem WorldGenerator.surface_fails_at_column_zero_witness :
    ((0 : Int) < 64 ∧ referenceGroundY64 0 = 64) ∧
    (Chunk.inRange 64 ⟨0, referenceGroundY64 0 - 0⟩ = false ∧
    (⟨0, referenceGroundY64 0 - 0⟩, WorldGenerator.tileAtDepth 0)
      ∈ WorldGenerator.surfaceWrites 64 referenceGroundY64 ∧
    (WorldGenerator.init.getChunk 64 referenceGroundY64 ⟨0, -1⟩).1
      = Except.error Error.OutOfRange) :=
  ⟨⟨by decide, by decide⟩,
    WorldGenerator.surface_fails_at_column_zero 64 (by decide) referenceGroundY64 (by decide)
      WorldGenerator.init 0⟩

/-! ## `World::generateFlatChunk` -/

theorem World.mem_flatColumnWrites (size x : Int) (idx : ivec2) (t : Tile) :
    (idx, t) ∈ World.flatColumnWrites size x ↔
      (idx = ⟨x, size - 1⟩ ∧ t = ⟨TileKind.grass, 0⟩) ∨
      (idx = ⟨x, size - 2⟩ ∧ t = ⟨TileKind.grass, 0⟩) ∨
      (∃ y : Nat, y < 10 ∧ idx = ⟨x, size - 3 - y⟩ ∧ t = ⟨TileKind.dirt, y⟩) ∨
      (∃ y : Nat, y < 10 ∧ idx = ⟨x, size - 13 - y⟩ ∧ t = ⟨TileKind.stone, y⟩) := by
  simp only [World.flatColumnWrites, List.mem_append, List.mem_cons, List.mem_singleton,
    List.mem_map, List.mem_range, Prod.mk.injEq, List.not_mem_nil, or_false]
  constructor
  · rintro (((h | h) | ⟨y, hy, h1, h2⟩) | ⟨y, hy, h1, h2⟩)
    · exact Or.inl h
    · exact Or.inr (Or.inl h)
    · exact Or.inr (Or.inr (Or.inl ⟨y, hy, h1.symm, h2.symm⟩))
    · exact Or.inr (Or.inr (Or.inr ⟨y, hy, h1.symm, h2.symm⟩))
  · rintro (h | h | ⟨y, hy, h1, h2⟩ | ⟨y, hy, h1, h2⟩)
    · exact Or.inl (Or.inl (Or.inl h))
    · exact Or.inl (Or.inl (Or.inr h))
    · exact Or.inl (Or.inr ⟨y, hy, h1.symm, h2.symm⟩)
    · exact Or.inr ⟨y, hy, h1.symm, h2.symm⟩

theorem World.flatTile_top (size y : Int) (h : size - 2 ≤ y) :
    World.flatTile size y = ⟨TileKind.grass, 0⟩ := by
  unfold World.flatTile
  rw [if_pos h]

theorem World.mem_flatWrites (size : Int) (idx : ivec2) (t : Tile) :
    (idx, t) ∈ World.flatWrites size ↔
      ∃ x : Nat, (x : Int) < size ∧ (idx, t) ∈ World.flatColumnWrites size x := by
  simp only [World.flatWrites, List.mem_flatMap, List.mem_range, Int.lt_toNat]

/-- Every assignment of the flat provider targets a column of the chunk and
one of its top 22 rows, and carries the tile of that row. -/
theorem World.flatWrites_spec (size : Int) (idx : ivec2) (t : Tile)
    (h : (idx, t) ∈ World.flatWrites size) :
    0 ≤ idx.x ∧ idx.x < size ∧ size - 22 ≤ idx.y ∧ idx.y ≤ size - 1 ∧
      t = World.flatTile size idx.y := by
  obtain ⟨x, hx, hmem⟩ := (World.mem_flatWrites size idx t).mp h
  rcases (World.mem_flatColumnWrites size x idx t).mp hmem with
    ⟨rfl, rfl⟩ | ⟨rfl, rfl⟩ | ⟨y, hy, rfl, rfl⟩ | ⟨y, hy, rfl, rfl⟩
  · refine ⟨by dsimp only; omega, hx, by dsimp only; omega, by dsimp only; omega, ?_⟩
    exact (World.flatTile_top size _ (by dsimp only; omega)).symm
  · refine ⟨by dsimp only; omega, hx, by dsimp only; omega, by dsimp only; omega, ?_⟩
    exact (World.flatTile_top size _ (by dsimp only; omega)).symm
  · refine ⟨by dsimp only; omega, hx, by dsimp only; omega, by dsimp only; omega, ?_⟩
    have h1 : ¬ size - 2 ≤ size - 3 - (y : Int) := by omega
    have h2 : size - 12 ≤ size - 3 - (y : Int) := by omega
    simp only [World.flatTile, h1, h2, if_true, if_false, Tile.mk.injEq, true_and]
    omega
  · refine ⟨by dsimp only; omega, hx, by dsimp only; omega, by dsimp only; omega, ?_⟩
    have h1 : ¬ size - 2 ≤ size - 13 - (y : Int) := by omega
    have h2 : ¬ size - 12 ≤ size - 13 - (y : Int) := by omega
    simp only [World.flatTile, h1, h2, if_false, Tile.mk.injEq, true_and]
    omega

/-- Every cell of the top 22 rows of a column is targeted by an assignment
of the flat provider. -/
theorem World.flatWrites_mem (size x y : Int) (hx0 : 0 ≤ x) (hx : x < size)
    (hy0 : size - 22 ≤ y) (hy : y ≤ size - 1) :
    (⟨x, y⟩, World.flatTile size y) ∈ World.flatWrites size := by
  obtain ⟨xn, rfl⟩ := Int.eq_ofNat_of_zero_le hx0
  refine (World.mem_flatWrites size _ _).mpr ⟨xn, hx, ?_⟩
  refine (World.mem_flatColumnWrites size xn _ _).mpr ?_
  by_cases h1 : y = size - 1
  · subst h1
    exact Or.inl ⟨rfl, World.flatTile_top size _ (by omega)⟩
  by_cases h2 : y = size - 2
  · subst h2
    exact Or.inr (Or.inl ⟨rfl, World.flatTile_top size _ (by omega)⟩)
  by_cases h3 : size - 12 ≤ y
  · refine Or.inr (Or.inr (Or.inl ⟨(size - 3 - y).toNat, by omega, ?_, ?_⟩))
    · have : ((size - 3 - y).toNat : Int) = size - 3 - y := Int.toNat_of_nonneg (by omega)
      rw [this]
      congr 1
      omega
    · have : ((size - 3 - y).toNat : Int) = size - 3 - y := Int.toNat_of_nonneg (by omega)
      have h1' : ¬ size - 2 ≤ y := by omega
      simp [World.flatTile, h1', h3, this]
  · refine Or.inr (Or.inr (Or.inr ⟨(size - 13 - y).toNat, by omega, ?_, ?_⟩))
    · have : ((size - 13 - y).toNat : Int) = size - 13 - y := Int.toNat_of_nonneg (by omega)
      rw [this]
      congr 1
      omega
    · have : ((size - 13 - y).toNat : Int) = size - 13 - y := Int.toNat_of_nonneg (by omega)
      have h1' : ¬ size - 2 ≤ y := by omega
      simp [World.flatTile, h1', h3, this]

/-- The tile of a cell after the assignments of the flat provider, for a
chunk size of at least 22: the band tile in the top 22 rows of a column, the
former tile elsewhere. -/
theorem World.flatWrites_result (size : Int) (hsize : 22 ≤ size) (c : Chunk) :
    (Chunk.writeAll size c (World.flatWrites size)).1 = Except.ok () ∧
    (∀ x y : Int, 0 ≤ x → x < size → size - 22 ≤ y → y ≤ size - 1 →
      (Chunk.writeAll size c (World.flatWrites size)).2.tiles ⟨x, y⟩ = World.flatTile size y) ∧
    (∀ x y : Int, y < size - 22 →
      (Chunk.writeAll size c (World.flatWrites size)).2.tiles ⟨x, y⟩ = c.tiles ⟨x, y⟩) := by
  have hrange : ∀ w ∈ World.flatWrites size, Chunk.inRange size w.1 = true := by
    rintro ⟨idx, t⟩ hw
    obtain ⟨h1, h2, h3, h4, _⟩ := World.flatWrites_spec size idx t hw
    simp [Chunk.inRange]
    omega
  refine ⟨Chunk.writeAll_ok size c _ hrange, ?_, ?_⟩
  · intro x y hx0 hx hy0 hy
    apply Chunk.writeAll_tiles_of_mem size c _ _ _ hrange
    · rintro ⟨idx, t⟩ hw hidx
      obtain ⟨_, _, _, _, ht⟩ := World.flatWrites_spec size idx t hw
      simp only at hidx
      rw [ht, hidx]
    · exact ⟨_, World.flatWrites_mem size x y hx0 hx hy0 hy, rfl⟩
  · intro x y hy
    apply Chunk.writeAll_tiles_of_not_mem
    rintro ⟨idx, t⟩ hw hidx
    obtain ⟨_, _, h3, _, _⟩ := World.flatWrites_spec size idx t hw
    simp only at hidx
    rw [hidx] at h3
    simp at h3
    omega

/-- The flat provider unfolded: the new chunk is the rock-filled chunk at
`pos` after the band assignments, appended to the chunk vector. -/
theorem World.generateFlatChunk_eq (size : Int) (w : World) (pos : lvec2) :
    World.generateFlatChunk size w pos
      = ((Chunk.writeAll size ((Chunk.create pos).fill TileKind.rock)
            (World.flatWrites size)).1.map (fun _ => w.chunks.length),
          { w with chunks := w.chunks ++
              [(Chunk.writeAll size ((Chunk.create pos).fill TileKind.rock)
                (World.flatWrites size)).2] }) := by
  have hobj : World.chunkObj { w with chunks := w.chunks ++ [Chunk.create pos] } w.chunks.length
      = Chunk.create pos := by
    simp [World.chunkObj, List.getD_eq_getElem?_getD]
  simp only [World.generateFlatChunk, World.createChunk, hobj, World.setChunkObj]
  rw [List.set_append_right _ _ (Nat.le_refl _)]
  simp

/-- C17: for every chunk position, every world and every chunk size of at
least 22, `World::generateFlatChunk` succeeds, adds exactly one chunk to the
world (at the end of the chunk vector, with the requested position), and in
every column of that chunk the tiles are: grass with variant 0 at rows `N-1`
and `N-2`, dirt with variant `k` at row `N-3-k` and stone with variant `k` at
row `N-13-k` for each `k` in `[0, 10)`, and rock with variant 0 at every row
below `N-22`. -/
theorem World.generateFlatChunk_bands (size : Int) (hsize : 22 ≤ size) (w : World)
    (pos : lvec2) :
    (World.generateFlatChunk size w pos).1 = Except.ok w.chunks.length ∧
    (World.generateFlatChunk size w pos).2.chunkCount = w.chunkCount + 1 ∧
    ∃ c, (World.generateFlatChunk size w pos).2.chunks = w.chunks ++ [c] ∧ c.getPos = pos ∧
      ∀ x : Int, 0 ≤ x → x < size →
        c.tiles ⟨x, size - 1⟩ = ⟨TileKind.grass, 0⟩ ∧
        c.tiles ⟨x, size - 2⟩ = ⟨TileKind.grass, 0⟩ ∧
        (∀ k : Int, 0 ≤ k → k < 10 → c.tiles ⟨x, size - 3 - k⟩ = ⟨TileKind.dirt, k⟩) ∧
        (∀ k : Int, 0 ≤ k → k < 10 → c.tiles ⟨x, size - 13 - k⟩ = ⟨TileKind.stone, k⟩) ∧
        (∀ y : Int, y < size - 22 → c.tiles ⟨x, y⟩ = ⟨TileKind.rock, 0⟩) := by
  obtain ⟨hok, hband, hrest⟩ :=
    World.flatWrites_result size hsize ((Chunk.create pos).fill TileKind.rock)
  rw [World.generateFlatChunk_eq]
  refine ⟨by rw [hok]; rfl, by simp [World.chunkCount], _, rfl, ?_, ?_⟩
  · rw [Chunk.getPos, Chunk.writeAll_pos]
    rfl
  · intro x hx0 hx
    refine ⟨?_, ?_, ?_, ?_, ?_⟩
    · rw [hband x (size - 1) hx0 hx (by omega) (by omega)]
      exact World.flatTile_top size _ (by omega)
    · rw [hband x (size - 2) hx0 hx (by omega) (by omega)]
      exact World.flatTile_top size _ (by omega)
    · intro k hk0 hk
      rw [hband x (size - 3 - k) hx0 hx (by omega) (by omega)]
      have h1 : ¬ size - 2 ≤ size - 3 - k := by omega
      have h2 : size - 12 ≤ size - 3 - k := by omega
      simp only [World.flatTile, h1, h2, if_true, if_false, Tile.mk.injEq, true_and]
      omega
    · intro k hk0 hk
      rw [hband x (size - 13 - k) hx0 hx (by omega) (by omega)]
      have h1 : ¬ size - 2 ≤ size - 13 - k := by omega
      have h2 : ¬ size - 12 ≤ size - 13 - k := by omega
      simp only [World.flatTile, h1, h2, if_false, Tile.mk.injEq, true_and]
      omega
    · intro y hy
      rw [hrest x y hy]
      rfl

/-- C17 at `size = 64`, the fresh world and the chunk position `(2, -1)`. -/
theorem World.generateFlatChunk_bands_witness :
    (22 : Int) ≤ 64 ∧
    ((World.generateFlatChunk 64 (World.init false) ⟨2, -1⟩).1
      = Except.ok (World.init false).chunks.length ∧
    (World.generateFlatChunk 64 (World.init false) ⟨2, -1⟩).2.chunkCount
      = (World.init false).chunkCount + 1 ∧
    ∃ c, (World.generateFlatChunk 64 (World.init false) ⟨2, -1⟩).2.chunks
        = (World.init false).chunks ++ [c] ∧ c.getPos = ⟨2, -1⟩ ∧
      ∀ x : Int, 0 ≤ x → x < 64 →
        c.tiles ⟨x, 64 - 1⟩ = ⟨TileKind.grass, 0⟩ ∧
        c.tiles ⟨x, 64 - 2⟩ = ⟨TileKind.grass, 0⟩ ∧
        (∀ k : Int, 0 ≤ k → k < 10 → c.tiles ⟨x, 64 - 3 - k⟩ = ⟨TileKind.dirt, k⟩) ∧
        (∀ k : Int, 0 ≤ k → k < 10 → c.tiles ⟨x, 64 - 13 - k⟩ = ⟨TileKind.stone, k⟩) ∧
        (∀ y : Int, y < 64 - 22 → c.tiles ⟨x, y⟩ = ⟨TileKind.rock, 0⟩)) :=
  ⟨by decide, World.generateFlatChunk_bands 64 (by decide) (World.init false) ⟨2, -1⟩⟩

/-! ## Injectivity of the addressing and non-interference of writes -/

/-- A multiple of `size` strictly between `-size` and `size` is zero. -/
theorem eq_zero_of_small_multiple (size d : Int) (hd : d % size = 0)
    (h1 : -size < d) (h2 : d < size) : d = 0 := by
  by_cases hneg : d < 0
  · have hm : (-d) % size = 0 := by
      have : size ∣ d := Int.dvd_of_emod_eq_zero hd
      exact Int.emod_eq_zero_of_dvd ((Int.dvd_neg).mpr this)
    have := Int.emod_eq_of_lt (by omega : 0 ≤ -d) (by omega : -d < size)
    omega
  · have := Int.emod_eq_of_lt (by omega : 0 ≤ d) h2
    omega

/-- One component of the addressing is injective. -/
theorem addressing_scalar_injective (size x x' : Int) (h : 0 < size)
    (hc : Int.tdiv x size - boolToInt (decide (x < 0))
      = Int.tdiv x' size - boolToInt (decide (x' < 0)))
    (ht : x % size = x' % size) : x = x' := by
  have hd := Int.tmod_add_tdiv' x size
  have hd' := Int.tmod_add_tdiv' x' size
  have hsub : (x - x') % size = 0 := Int.emod_eq_emod_iff_emod_sub_eq_zero.mp ht
  by_cases hx : x < 0 <;> by_cases hx' : x' < 0
  · obtain ⟨a1, a2⟩ := tmod_range_of_neg size x h hx
    obtain ⟨b1, b2⟩ := tmod_range_of_neg size x' h hx'
    simp only [hx, hx', decide_True, boolToInt, if_true] at hc
    have hq : Int.tdiv x size = Int.tdiv x' size := by omega
    rw [hq] at hd
    have := eq_zero_of_small_multiple size (x - x') hsub (by omega) (by omega)
    omega
  · obtain ⟨a1, a2⟩ := tmod_range_of_neg size x h hx
    have b1 := Int.tmod_nonneg size (by omega : 0 ≤ x')
    have b2 := Int.tmod_lt_of_pos x' h
    simp only [hx, hx', decide_True, decide_False, boolToInt, if_true, Bool.false_eq_true,
      if_false] at hc
    have hq : Int.tdiv x size = Int.tdiv x' size + 1 := by omega
    rw [hq, Int.add_mul] at hd
    have := eq_zero_of_small_multiple size (x - x') hsub (by omega) (by omega)
    omega
  · obtain ⟨b1, b2⟩ := tmod_range_of_neg size x' h hx'
    have a1 := Int.tmod_nonneg size (by omega : 0 ≤ x)
    have a2 := Int.tmod_lt_of_pos x h
    simp only [hx, hx', decide_True, decide_False, boolToInt, if_true, Bool.false_eq_true,
      if_false] at hc
    have hq : Int.tdiv x' size = Int.tdiv x size + 1 := by omega
    rw [hq, Int.add_mul] at hd'
    have := eq_zero_of_small_multiple size (x - x') hsub (by omega) (by omega)
    omega
  · have a1 := Int.tmod_nonneg size (by omega : 0 ≤ x)
    have a2 := Int.tmod_lt_of_pos x h
    have b1 := Int.tmod_nonneg size (by omega : 0 ≤ x')
    have b2 := Int.tmod_lt_of_pos x' h
    simp only [hx, hx', decide_False, boolToInt, Bool.false_eq_true, if_false] at hc
    have hq : Int.tdiv x size = Int.tdiv x' size := by omega
    rw [hq] at hd
    have := eq_zero_of_small_multiple size (x - x') hsub (by omega) (by omega)
    omega

/-- The addressing is injective: the pair of chunk coordinate and local
index determines the tile index. -/
theorem addressing_injective (size : Int) (h : 0 < size) (p q : lvec2)
    (hc : chunkposOf size p = chunkposOf size q) (ht : tileposOf size p = tileposOf size q) :
    p = q := by
  rw [tileposOf_eq_emod size h, tileposOf_eq_emod size h] at ht
  simp only [lvec2.mk.injEq] at ht
  have hcx := congrArg lvec2.x hc
  have hcy := congrArg lvec2.y hc
  rw [chunkposOf_x, chunkposOf_x] at hcx
  rw [chunkposOf_y, chunkposOf_y] at hcy
  apply lvec2.ext
  · exact addressing_scalar_injective size p.x q.x h hcx ht.1
  · exact addressing_scalar_injective size p.y q.y h hcy ht.2

theorem mem_mapPtrs_of_find (m : ChunkMap) (k : lvec2) (a : Nat)
    (h : mapFind m k = some (some a)) : a ∈ mapPtrs m := by
  induction m with
  | nil => simp [mapFind] at h
  | cons e m ih =>
    obtain ⟨k', v⟩ := e
    by_cases hk : k' = k
    · simp only [mapFind, hk, if_true, Option.some.injEq] at h
      subst h
      simp [mapPtrs]
    · simp only [mapFind, hk, if_false] at h
      have := ih h
      simp only [mapPtrs] at this ⊢
      cases v with
      | none => simpa using this
      | some b => simp [this]

/-- When the stored pointers are pairwise distinct, a chunk object is found
under one key only. -/
theorem find_key_unique (m : ChunkMap) (hnd : (mapPtrs m).Nodup) (k1 k2 : lvec2) (a : Nat)
    (h1 : mapFind m k1 = some (some a)) (h2 : mapFind m k2 = some (some a)) : k1 = k2 := by
  induction m with
  | nil => simp [mapFind] at h1
  | cons e m ih =>
    obtain ⟨k', v⟩ := e
    have hrest : (mapPtrs m).Nodup := by
      cases v with
      | none => simpa [mapPtrs] using hnd
      | some b =>
        have : (b :: mapPtrs m).Nodup := by simpa [mapPtrs] using hnd
        exact (List.nodup_cons.mp this).2
    by_cases hk1 : k' = k1 <;> by_cases hk2 : k' = k2
    · rw [← hk1, ← hk2]
    · simp only [mapFind, hk1, if_true, Option.some.injEq] at h1
      simp only [mapFind, hk2, if_false] at h2
      subst h1
      have hmem := mem_mapPtrs_of_find m k2 a h2
      have : (a :: mapPtrs m).Nodup := by simpa [mapPtrs] using hnd
      exact absurd hmem (List.nodup_cons.mp this).1
    · simp only [mapFind, hk2, if_true, Option.some.injEq] at h2
      simp only [mapFind, hk1, if_false] at h1
      subst h2
      have hmem := mem_mapPtrs_of_find m k1 a h1
      have : (a :: mapPtrs m).Nodup := by simpa [mapPtrs] using hnd
      exact absurd hmem (List.nodup_cons.mp this).1
    · simp only [mapFind, hk1, if_false] at h1
      simp only [mapFind, hk2, if_false] at h2
      exact ih hrest h1 h2

/-- What `loadChunk` returns and leaves behind. -/
theorem loadChunk_cases (gen : lvec2 → Chunk) (w : WorldContainer) (key : lvec2) :
    (∃ a, mapFind w.m_chunks key = some (some a) ∧ w.loadChunk gen key = (a, w)) ∨
    ((∀ a, mapFind w.m_chunks key ≠ some (some a)) ∧
      w.loadChunk gen key
        = (w.chunkNext,
            { w with
              m_chunks := mapAssign w.m_chunks key (some w.chunkNext)
              chunkHeap := fun a => if a = w.chunkNext then gen key else w.chunkHeap a
              chunkNext := w.chunkNext + 1 })) := by
  cases h : mapFind w.m_chunks key with
  | none => exact Or.inr ⟨fun a => by simp, by simp [WorldContainer.loadChunk, h]⟩
  | some v =>
    cases v with
    | none => exact Or.inr ⟨fun a => by simp, by simp [WorldContainer.loadChunk, h]⟩
    | some a => exact Or.inl ⟨a, rfl, by simp [WorldContainer.loadChunk, h]⟩

/-- A lookup under another key is not affected by `loadChunk`. -/
theorem loadChunk_find_ne (gen : lvec2 → Chunk) (w : WorldContainer) (key k : lvec2)
    (hne : k ≠ key) : mapFind (w.loadChunk gen key).2.m_chunks k = mapFind w.m_chunks k := by
  rcases loadChunk_cases gen w key with ⟨a, _, h⟩ | ⟨_, h⟩
  · rw [h]
  · rw [h]
    exact mapFind_mapAssign_ne _ _ _ _ hne

/-- The tile the mutable `at` resolves for the key `kq` and the local index
`tq` is the same before and after a tile has been stored through the
reference resolved for `(kp, tp)`, provided the two slots differ and, when
the keys differ, the chunk object stored under `kq` is not the one resolved
for `kp`. -/
theorem loadChunk_store_slot (gen : lvec2 → Chunk) (w : WorldContainer)
    (kp kq : lvec2) (tp tq : ivec2) (T : Tile) (hdiff : kp = kq → tp ≠ tq)
    (ap : Nat) (w1 : WorldContainer) (hL : w.loadChunk gen kp = (ap, w1))
    (hsep : kp ≠ kq → ∀ a, mapFind w.m_chunks kq = some (some a) → a ≠ ap) :
    (((w1.store ⟨ap, tp⟩ T).loadChunk gen kq).2.chunkHeap
        ((w1.store ⟨ap, tp⟩ T).loadChunk gen kq).1).tiles tq
      = ((w.loadChunk gen kq).2.chunkHeap (w.loadChunk gen kq).1).tiles tq := by
  have hfind : mapFind (w1.store ⟨ap, tp⟩ T).m_chunks kp = some (some ap) := by
    have := loadChunk_find gen w kp
    rw [hL] at this
    exact this
  by_cases hk : kp = kq
  · subst hk
    have htq : tq ≠ tp := fun e => hdiff rfl e.symm
    rw [loadChunk_of_find gen _ _ _ hfind, hL]
    simp [WorldContainer.store, Chunk.assign, htq]
  · have hne : kq ≠ kp := fun e => hk e.symm
    have hfindq : mapFind (w1.store ⟨ap, tp⟩ T).m_chunks kq = mapFind w.m_chunks kq := by
      have := loadChunk_find_ne gen w kp kq hne
      rw [hL] at this
      exact this
    rcases loadChunk_cases gen w kq with ⟨a, ha, hlq⟩ | ⟨hna, hlq⟩
    · rw [loadChunk_of_find gen _ _ _ (hfindq.trans ha), hlq]
      have hab : a ≠ ap := hsep hk a ha
      rcases loadChunk_cases gen w kp with ⟨b, hb, hlp⟩ | ⟨_, hlp⟩
      · rw [hL] at hlp
        simp only [Prod.mk.injEq] at hlp
        obtain ⟨rfl, rfl⟩ := hlp
        simp [WorldContainer.store, hab]
      · rw [hL] at hlp
        simp only [Prod.mk.injEq] at hlp
        obtain ⟨rfl, rfl⟩ := hlp
        simp [WorldContainer.store, hab]
    · have hnW : ∀ a, mapFind (w1.store ⟨ap, tp⟩ T).m_chunks kq ≠ some (some a) := by
        intro a
        rw [hfindq]
        exact hna a
      rcases loadChunk_cases gen (w1.store ⟨ap, tp⟩ T) kq with ⟨a, ha, _⟩ | ⟨_, hlW⟩
      · exact absurd ha (hnW a)
      · rw [hlW, hlq]
        simp

/-- In a container in which no chunk object is stored under two keys, the
chunk object stored under a key is not the one the mutable `at` resolves
for another key. -/
theorem unaliased_separates (gen : lvec2 → Chunk) (w : WorldContainer) (hw : w.unaliased)
    (kp kq : lvec2) (hk : kp ≠ kq) (a : Nat) (ha : mapFind w.m_chunks kq = some (some a)) :
    a ≠ (w.loadChunk gen kp).1 := by
  have hlt : a < w.chunkNext := hw.2 a (mem_mapPtrs_of_find _ _ _ ha)
  rcases loadChunk_cases gen w kp with ⟨b, hb, hlp⟩ | ⟨_, hlp⟩
  · rw [hlp]
    exact fun e => hk (find_key_unique _ hw.1 kp kq a (e ▸ hb) ha)
  · rw [hlp]
    exact fun e => by simp only at e; omega

theorem WorldContainer.write_eq (size : Int) (hsize : 0 < size) (gen : lvec2 → Chunk)
    (w : WorldContainer) (p : lvec2) (T : Tile) :
    w.write size gen p T
      = (Except.ok (), (w.loadChunk gen (chunkposOf size p + w.m_offset)).2.store
          ⟨(w.loadChunk gen (chunkposOf size p + w.m_offset)).1, tileposOf size p⟩ T) := by
  simp [WorldContainer.write, WorldContainer.at_eq size hsize]

theorem WorldContainer.read_eq (size : Int) (hsize : 0 < size) (gen : lvec2 → Chunk)
    (w : WorldContainer) (q : lvec2) :
    (w.read size gen q).1
      = Except.ok (((w.loadChunk gen (chunkposOf size q + w.m_offset)).2.chunkHeap
          (w.loadChunk gen (chunkposOf size q + w.m_offset)).1).tiles (tileposOf size q)) := by
  simp [WorldContainer.read, WorldContainer.at_eq size hsize, WorldContainer.deref]

/-- On a materialized chunk the read-only `at` reads what the mutable `at`
reads. -/
theorem WorldContainer.atConst_eq_read (size : Int) (hsize : 0 < size) (gen : lvec2 → Chunk)
    (w : WorldContainer) (q : lvec2) (a : Nat)
    (h : mapFind w.m_chunks (chunkposOf size q + w.m_offset) = some (some a)) :
    w.atConst size q = (w.read size gen q).1 := by
  rw [WorldContainer.read_eq size hsize, loadChunk_of_find gen _ _ _ h]
  simp [WorldContainer.atConst, getChunkConst_eq, h, Chunk.at, tileposOf_inRange size hsize q]

/-- The read-only `at` returns `Tile::null` when the key resolved for the
index holds no chunk. -/
theorem WorldContainer.atConst_of_not_found (size : Int) (w : WorldContainer) (q : lvec2)
    (h : ∀ a, mapFind w.m_chunks (chunkposOf size q + w.m_offset) ≠ some (some a)) :
    w.atConst size q = Except.ok Tile.null := by
  have hg : w.getChunkConst (chunkposOf size q) = none := by
    rw [getChunkConst_eq]
    cases hm : mapFind w.m_chunks (chunkposOf size q + w.m_offset) with
    | none => rfl
    | some v =>
      cases v with
      | none => rfl
      | some a => exact absurd hm (h a)
  simp [WorldContainer.atConst, hg]

/-- C19 (the claim as stated fails): the tile indices `(0,0)` and `(64,0)`
get different pairs of chunk coordinate and local index, yet in a container
whose keys `(0,0)` and `(1,0)` hold the same chunk object a write through the
mutable `at((0,0))` changes the tile that `at((64,0))` reads, in both
overloads; and in the empty container a write through the mutable
`at((0,0))` materializes the chunk, which changes the tile the read-only
`at((1,0))` returns from `Tile::null` to the generated tile. -/
theorem WorldContainer.write_changes_other_read :
    (⟨0, 0⟩ : lvec2) ≠ ⟨64, 0⟩ ∧
    (chunkposOf 64 ⟨0, 0⟩, tileposOf 64 ⟨0, 0⟩)
      ≠ (chunkposOf 64 ⟨64, 0⟩, tileposOf 64 ⟨64, 0⟩) ∧
    WorldContainer.aliased.atConst 64 ⟨64, 0⟩ = Except.ok Tile.default ∧
    (WorldContainer.aliased.write 64 emptyProvider ⟨0, 0⟩ ⟨TileKind.grass, 0⟩).2.atConst 64
      ⟨64, 0⟩ = Except.ok ⟨TileKind.grass, 0⟩ ∧
    (WorldContainer.aliased.read 64 emptyProvider ⟨64, 0⟩).1 = Except.ok Tile.default ∧
    ((WorldContainer.aliased.write 64 emptyProvider ⟨0, 0⟩ ⟨TileKind.grass, 0⟩).2.read 64
      emptyProvider ⟨64, 0⟩).1 = Except.ok ⟨TileKind.grass, 0⟩ ∧
    (⟨0, 0⟩ : lvec2) ≠ ⟨1, 0⟩ ∧
    WorldContainer.init.atConst 64 ⟨1, 0⟩ = Except.ok Tile.null ∧
    (WorldContainer.init.write 64 emptyProvider ⟨0, 0⟩ ⟨TileKind.grass, 0⟩).2.atConst 64
      ⟨1, 0⟩ = Except.ok Tile.default :=
  ⟨by decide, by decide, rfl, rfl, rfl, rfl, by decide, rfl, rfl⟩

/-- C19 (amended): for a positive chunk size the addressing of
`WorldContainer::at` is injective: tile indices `p ≠ q` get different pairs
of chunk coordinate and local index. Hence a write through the mutable
`at(p)` does not change the tile that `at(q)` reads, provided the chunks of
`p` and `q` are not one chunk object stored under two different keys and,
for the read-only overload, `q` does not lie in the not yet materialized
chunk of `p`. -/
theorem WorldContainer.write_keeps_other_read (size : Int) (hsize : 0 < size)
    (gen : lvec2 → Chunk) (w : WorldContainer) (p q : lvec2) (hpq : p ≠ q) (T : Tile)
    (hsep : chunkposOf size p + w.m_offset ≠ chunkposOf size q + w.m_offset →
      ∀ a, mapFind w.m_chunks (chunkposOf size q + w.m_offset) = some (some a) →
        a ≠ (w.loadChunk gen (chunkposOf size p + w.m_offset)).1) :
    (chunkposOf size p, tileposOf size p) ≠ (chunkposOf size q, tileposOf size q) ∧
    ((w.write size gen p T).2.read size gen q).1 = (w.read size gen q).1 ∧
    ((chunkposOf size p = chunkposOf size q →
        ∃ a, mapFind w.m_chunks (chunkposOf size p + w.m_offset) = some (some a)) →
      (w.write size gen p T).2.atConst size q = w.atConst size q) := by
  have hinj : (chunkposOf size p, tileposOf size p) ≠ (chunkposOf size q, tileposOf size q) := by
    intro h
    simp only [Prod.mk.injEq] at h
    exact hpq (addressing_injective size hsize p q h.1 h.2)
  have hkey : chunkposOf size p + w.m_offset = chunkposOf size q + w.m_offset →
      chunkposOf size p = chunkposOf size q := by
    intro hk
    have hx := congrArg lvec2.x hk
    have hy := congrArg lvec2.y hk
    simp only [lvec2.add_x, lvec2.add_y] at hx hy
    apply lvec2.ext <;> omega
  have hdiff : chunkposOf size p + w.m_offset = chunkposOf size q + w.m_offset →
      tileposOf size p ≠ tileposOf size q := by
    intro hk ht
    apply hinj
    rw [hkey hk, ht]
  have hoff : ((w.loadChunk gen (chunkposOf size p + w.m_offset)).2.store
      ⟨(w.loadChunk gen (chunkposOf size p + w.m_offset)).1, tileposOf size p⟩ T).m_offset
      = w.m_offset := loadChunk_offset gen w _
  have hread : ((w.write size gen p T).2.read size gen q).1 = (w.read size gen q).1 := by
    have key := loadChunk_store_slot gen w (chunkposOf size p + w.m_offset)
      (chunkposOf size q + w.m_offset) (tileposOf size p) (tileposOf size q) T hdiff
      (w.loadChunk gen (chunkposOf size p + w.m_offset)).1
      (w.loadChunk gen (chunkposOf size p + w.m_offset)).2 rfl hsep
    rw [WorldContainer.write_eq size hsize, WorldContainer.read_eq size hsize,
      WorldContainer.read_eq size hsize, hoff]
    exact congrArg Except.ok key
  refine ⟨hinj, hread, ?_⟩
  intro hmat
  by_cases hk : chunkposOf size p + w.m_offset = chunkposOf size q + w.m_offset
  · obtain ⟨a, ha⟩ := hmat (hkey hk)
    have hb : mapFind (w.write size gen p T).2.m_chunks
        (chunkposOf size q + (w.write size gen p T).2.m_offset)
        = some (some (w.loadChunk gen (chunkposOf size p + w.m_offset)).1) := by
      rw [WorldContainer.write_eq size hsize, hoff, ← hk]
      exact loadChunk_find gen w _
    rw [WorldContainer.atConst_eq_read size hsize gen _ q _ hb,
      WorldContainer.atConst_eq_read size hsize gen w q a (hk ▸ ha), hread]
  · have hsame : mapFind (w.write size gen p T).2.m_chunks
        (chunkposOf size q + (w.write size gen p T).2.m_offset)
        = mapFind w.m_chunks (chunkposOf size q + w.m_offset) := by
      rw [WorldContainer.write_eq size hsize, hoff]
      exact loadChunk_find_ne gen w (chunkposOf size p + w.m_offset)
        (chunkposOf size q + w.m_offset) (fun e => hk e.symm)
    by_cases hq : ∃ a, mapFind w.m_chunks (chunkposOf size q + w.m_offset) = some (some a)
    · obtain ⟨a, ha⟩ := hq
      rw [WorldContainer.atConst_eq_read size hsize gen _ q a (hsame.trans ha),
        WorldContainer.atConst_eq_read size hsize gen w q a ha, hread]
    · have hn : ∀ a, mapFind w.m_chunks (chunkposOf size q + w.m_offset) ≠ some (some a) :=
        fun a ha => hq ⟨a, ha⟩
      rw [WorldContainer.atConst_of_not_found size w q hn,
        WorldContainer.atConst_of_not_found size _ q (fun a => by rw [hsame]; exact hn a)]

/-- C19 (amended) at `size = 64`, the container whose only chunk is stored
under `(0,0)`, a write at the tile index `(0,0)` and a read at `(64,0)`,
which lies in the chunk `(1,0)` that is not materialized. -/
theorem WorldContainer.write_keeps_other_read_witness :
    ((0 : Int) < 64 ∧ (⟨0, 0⟩ : lvec2) ≠ ⟨64, 0⟩ ∧
      (chunkposOf 64 ⟨0, 0⟩ + WorldContainer.oneChunk.m_offset
          ≠ chunkposOf 64 ⟨64, 0⟩ + WorldContainer.oneChunk.m_offset →
        ∀ a, mapFind WorldContainer.oneChunk.m_chunks
            (chunkposOf 64 ⟨64, 0⟩ + WorldContainer.oneChunk.m_offset) = some (some a) →
          a ≠ (WorldContainer.oneChunk.loadChunk emptyProvider
            (chunkposOf 64 ⟨0, 0⟩ + WorldContainer.oneChunk.m_offset)).1)) ∧
    ((chunkposOf 64 ⟨0, 0⟩, tileposOf 64 ⟨0, 0⟩)
      ≠ (chunkposOf 64 ⟨64, 0⟩, tileposOf 64 ⟨64, 0⟩) ∧
    ((WorldContainer.oneChunk.write 64 emptyProvider ⟨0, 0⟩ ⟨TileKind.grass, 0⟩).2.read 64
      emptyProvider ⟨64, 0⟩).1 = (WorldContainer.oneChunk.read 64 emptyProvider ⟨64, 0⟩).1 ∧
    ((chunkposOf 64 ⟨0, 0⟩ = chunkposOf 64 ⟨64, 0⟩ →
        ∃ a, mapFind WorldContainer.oneChunk.m_chunks
          (chunkposOf 64 ⟨0, 0⟩ + WorldContainer.oneChunk.m_offset) = some (some a)) →
      (WorldContainer.oneChunk.write 64 emptyProvider ⟨0, 0⟩ ⟨TileKind.grass, 0⟩).2.atConst 64
        ⟨64, 0⟩ = WorldContainer.oneChunk.atConst 64 ⟨64, 0⟩)) :=
  ⟨⟨by decide, by decide, fun _ a h => by
      rw [show mapFind WorldContainer.oneChunk.m_chunks
        (chunkposOf 64 ⟨64, 0⟩ + WorldContainer.oneChunk.m_offset) = none from by decide] at h
      cases h⟩,
    WorldContainer.write_keeps_other_read 64 (by decide) emptyProvider WorldContainer.oneChunk
      ⟨0, 0⟩ ⟨64, 0⟩ (by decide) ⟨TileKind.grass, 0⟩ (fun _ a h => by
        rw [show mapFind WorldContainer.oneChunk.m_chunks
          (chunkposOf 64 ⟨64, 0⟩ + WorldContainer.oneChunk.m_offset) = none from by decide] at h
        cases h)⟩

end Photon
